import Mathlib

/-!
# collect-repos: grouping, pagination and rendering of repository records

A shallow embedding of `main.go` (package `main` of `zoroqi/collect-repos`) and
theorems about it.

Conventions of the embedding.

* A Go `string` is a Lean `String` (the strings handled here are decoded from
  JSON and hence valid UTF-8).  Go's `<` on strings compares the bytes, so it
  is modelled by `stringLess`, the lexicographic order of the UTF-8 encodings.
* A `*github.Repository` is a `Repository`: the slices hold non-nil pointers.
  The pointer-typed fields of the struct are `Option`s and the `GetX`
  accessors return the zero value for an absent field, as in go-github.
* `sort.Slice` is not part of the repository.  Its documented contract (the
  result is a rearrangement of the slice that is ordered with respect to
  `less`; stability is not promised) is the structure `SliceSorter`, and every
  function that sorts takes a `SliceSorter`.  `goInsertionSort` is the
  insertion sort of the Go library, which is all that `sort.Slice` runs on a
  slice of at most 6 elements.
* `strings.ToLower` maps `unicode.ToLower` over the runes of the string; the
  Unicode case table is the parameter `lowerRune`.
* A `float64` is modelled exactly: `Float64` holds the sign and the magnitude
  as a whole number of units of `2^(-1074)`, conversion and division round to
  nearest, ties to even, and `%.1f` rounds the exact binary value to one
  decimal, ties to even, as `strconv` does.
* A loop that need not terminate (`queryList`) takes a budget of iterations
  and reports `Outcome.unfinished` when the budget is used up.
* The package-level templates `starsDesc`, `reposDesc` and `license` and the
  commit message are declared outside `main.go`; they are parameters
  (`Templates`, `message`), as are the clock (`now`) and the order in which
  `range` visits the map of file contents.
* The GitHub client is the outside world: its listing calls (`Client`) and its
  git calls (`ObjectStore`) are functions on an explicit state.  What the
  program relies on from the object store is stated as laws of `ObjectStore`.
  A struct pointer handed back by a successful call is non-nil; a string
  pointer is an `Option`.
-/

namespace CollectRepos

/-! ## Data model -/

/-- The calendar year and month of a `github.Timestamp`, in its own location
(what `time.Time.Date` reports). -/
structure Timestamp where
  year : Int
  month : Nat
deriving DecidableEq

/-- The fields of `github.Repository` that the program reads. -/
structure Repository where
  Name : Option String
  FullName : Option String
  Language : Option String
  Description : Option String
  HTMLURL : Option String
  PushedAt : Option Timestamp
  StargazersCount : Option Int
  ForksCount : Option Int
deriving DecidableEq

/-- Accessor `GetName`: the display name, or the empty string. -/
def Repository.GetName (r : Repository) : String := r.Name.getD ""

/-- Accessor `GetFullName`. -/
def Repository.GetFullName (r : Repository) : String := r.FullName.getD ""

/-- Accessor `GetLanguage`: the language label, or the empty string. -/
def Repository.GetLanguage (r : Repository) : String := r.Language.getD ""

/-- Accessor `GetDescription`. -/
def Repository.GetDescription (r : Repository) : String := r.Description.getD ""

/-- Accessor `GetHTMLURL`. -/
def Repository.GetHTMLURL (r : Repository) : String := r.HTMLURL.getD ""

/-- Accessor `GetStargazersCount`. -/
def Repository.GetStargazersCount (r : Repository) : Int := r.StargazersCount.getD 0

/-- Accessor `GetForksCount`. -/
def Repository.GetForksCount (r : Repository) : Int := r.ForksCount.getD 0

/-- The Go type `group`: a name and the records filed under it. -/
structure group where
  name : String
  repo : List Repository
deriving DecidableEq

/-! ## Library functions -/

/-- The requirement `sort.Slice` puts on its `less` argument: a strict weak
ordering. -/
structure StrictWeakOrder {α : Type} (less : α → α → Bool) : Prop where
  irrefl : ∀ a, less a a = false
  trans : ∀ a b c, less a b = true → less b c = true → less a c = true
  incomp : ∀ a b c, less a b = false → less b a = false →
    less b c = false → less c b = false → less a c = false ∧ less c a = false

/-- The contract of `sort.Slice`: it rearranges the slice, and when `less` is a
strict weak ordering no element is `less` than an element placed before it. -/
structure SliceSorter where
  sort : {α : Type} → (α → α → Bool) → List α → List α
  perm : ∀ {α : Type} (less : α → α → Bool) (l : List α), (sort less l).Perm l
  sorted : ∀ {α : Type} (less : α → α → Bool) (l : List α), StrictWeakOrder less →
    (sort less l).Pairwise (fun a b => less b a = false)

/-- Inner loop of Go's `insertionSort_func`: `x` is swapped leftwards while it
is `less` than its left neighbour.  The prefix is given last element first. -/
def insertLeftwards {α : Type} (less : α → α → Bool) (x : α) : List α → List α
  | [] => [x]
  | y :: rest => if less x y then y :: insertLeftwards less x rest else x :: y :: rest

/-- Go's `insertionSort_func` on a whole slice: the elements are taken from
left to right and each is moved into the ordered prefix. -/
def goInsertionSort {α : Type} (less : α → α → Bool) (l : List α) : List α :=
  (l.foldl (fun revPrefix x => insertLeftwards less x revPrefix) []).reverse

/-- The UTF-8 encoding of one rune, as a list of byte values. -/
def utf8Bytes (c : Char) : List Nat :=
  let v := c.toNat
  if v < 128 then [v]
  else if v < 2048 then [192 + v / 64, 128 + v % 64]
  else if v < 65536 then [224 + v / 4096, 128 + v / 64 % 64, 128 + v % 64]
  else [240 + v / 262144, 128 + v / 4096 % 64, 128 + v / 64 % 64, 128 + v % 64]

/-- The bytes of a Go string. -/
def goBytes (s : String) : List Nat := s.data.flatMap utf8Bytes

/-- Lexicographic comparison of two byte sequences. -/
def bytesLess : List Nat → List Nat → Bool
  | _, [] => false
  | [], _ :: _ => true
  | a :: as, b :: bs => if a < b then true else if b < a then false else bytesLess as bs

/-- Go's `s < t` on strings: byte-wise lexicographic comparison. -/
def stringLess (s t : String) : Bool := bytesLess (goBytes s) (goBytes t)

/-- Go's `strings.ToLower` on valid UTF-8: every rune is mapped by
`unicode.ToLower`, here `lowerRune`. -/
def toLower (lowerRune : Char → Char) (s : String) : String :=
  String.mk (s.data.map lowerRune)

/-! ## Grouper: `collectRepository` -/

/-- The local variables of the grouping loop: the slice `groups` (with its
placeholder at position 0), the map `indexMap` (a missing key reads 0) and the
counter `index`. -/
structure GroupState where
  groups : List group
  indexMap : String → Nat
  index : Nat

/-- The statement `groups[i].repo = append(groups[i].repo, repo)`; `none` when
`i` is out of range (a run-time failure in Go). -/
def appendRepoAt : List group → Nat → Repository → Option (List group)
  | [], _, _ => none
  | g :: gs, 0, r => some ({ g with repo := g.repo ++ [r] } :: gs)
  | g :: gs, i + 1, r => (appendRepoAt gs i r).map (fun gs1 => g :: gs1)

/-- The group key of a record: its language label, or "Others" for the empty
label (lines 26-29). -/
def groupKey (repo : Repository) : String :=
  if repo.GetLanguage = "" then "Others" else repo.GetLanguage

/-- One iteration of the loop of lines 25-36. -/
def collectStep (st : GroupState) (repo : Repository) : Option GroupState :=
  let name := groupKey repo
  let st1 : GroupState :=
    if st.indexMap name = 0 then
      { groups := st.groups ++ [{ name := name, repo := [] }]
        indexMap := fun k => if k = name then st.index else st.indexMap k
        index := st.index + 1 }
    else st
  (appendRepoAt st1.groups (st1.indexMap name) repo).map
    (fun gs => { st1 with groups := gs })

/-- The loop of lines 25-36 over the records that remain. -/
def collectLoop : GroupState → List Repository → Option GroupState
  | st, [] => some st
  | st, repo :: rest =>
    match collectStep st repo with
    | none => none
    | some st1 => collectLoop st1 rest

/-- The state before the loop: `make([]group, 1)`, an empty map, `index := 1`. -/
def initialState : GroupState :=
  { groups := [{ name := "", repo := [] }], indexMap := fun _ => 0, index := 1 }

/-- The comparison passed to the first `sort.Slice`: lower-cased display names. -/
def lessByLowerName (lowerRune : Char → Char) (a b : Repository) : Bool :=
  stringLess (toLower lowerRune a.GetName) (toLower lowerRune b.GetName)

/-- The comparison passed to the second `sort.Slice`: group names. -/
def lessByGroupName (a b : group) : Bool := stringLess a.name b.name

/-- The function `collectRepository` (lines 17-42).  `none` stands for a
run-time failure (an index out of range). -/
def collectRepository (S : SliceSorter) (lowerRune : Char → Char)
    (repos : List Repository) : Option (List group) :=
  let repos := S.sort (lessByLowerName lowerRune) repos
  match collectLoop initialState repos with
  | none => none
  | some st =>
    match st.groups with
    | [] => none
    | _ :: g => some (S.sort lessByGroupName g)

/-! ## Paginator: `queryList` -/

/-- A non-nil Go `error`, identified with its message; the nil error is `none`. -/
abbrev GoError := String

/-- The field of `github.Response` that the program reads. -/
structure Response where
  NextPage : Int
deriving DecidableEq

/-- What one call of the page-fetch function returns: a slice of records, a
response pointer (`none` is nil) and an error (`none` is nil). -/
structure FetchResult where
  repo : List Repository
  resp : Option Response
  err : Option GoError
deriving DecidableEq

/-- A page-fetch function.  It receives `ListOptions.Page`, and since it talks
to the outside world it may answer differently from call to call: `σ` is its
hidden state. -/
abbrev PageFetch (σ : Type) := σ → Int → FetchResult × σ

/-- One invocation of the page-fetch function: the page asked for and the answer. -/
structure Call where
  page : Int
  result : FetchResult
deriving DecidableEq

/-- How a run of `queryList` ends. -/
inductive Outcome where
  /-- The function returned these records and this error. -/
  | returned (repos : List Repository) (err : Option GoError)
  /-- A run-time failure: a slice bound out of range or a nil dereference. -/
  | failed
  /-- The loop was still running when the budget of invocations was used up. -/
  | unfinished
deriving DecidableEq

/-- The closure `subList` (lines 267-272): `repos` when `count > len(repos)`,
otherwise `repos[0:count]`, which fails for a negative `count`. -/
def subList (count : Int) (repos : List Repository) (err : Option GoError) : Outcome :=
  if count > (repos.length : Int) then Outcome.returned repos err
  else if 0 ≤ count then Outcome.returned (repos.take count.toNat) err
  else Outcome.failed

/-- The loop of lines 274-289 followed by line 290, started with the given
hidden state, page and accumulator.  The first argument bounds the number of
invocations of `api`; the result lists the invocations made, in order. -/
def queryListLoop {σ : Type} (api : PageFetch σ) (count : Int) :
    Nat → σ → Int → List Repository → List Call × Outcome
  | 0, _, _, repos =>
    if (repos.length : Int) ≤ count then ([], Outcome.unfinished)
    else ([], subList count repos none)
  | fuel + 1, s, page, repos =>
    if (repos.length : Int) ≤ count then
      let res := (api s page).1
      let repos1 := if res.repo.length > 0 then repos ++ res.repo else repos
      match res.err with
      | some e => ([{ page := page, result := res }], subList count repos1 (some e))
      | none =>
        match res.resp with
        | none => ([{ page := page, result := res }], Outcome.failed)
        | some r =>
          if r.NextPage = 0 then
            ([{ page := page, result := res }], subList count repos1 none)
          else
            let out := queryListLoop api count fuel (api s page).2 r.NextPage repos1
            ({ page := page, result := res } :: out.1, out.2)
    else ([], subList count repos none)

/-- The function `queryList` (lines 265-291): `page := 1`, an empty accumulator. -/
def queryList {σ : Type} (api : PageFetch σ) (s : σ) (count : Int) (fuel : Nat) :
    List Call × Outcome :=
  queryListLoop api count fuel s 1 []

/-- The records of a list of invocations, in fetch order. -/
def fetched (calls : List Call) : List Repository :=
  calls.flatMap (fun c => c.result.repo)

/-- A page source that is a finite chain: asked for page `page` in state `s`
it serves the pages `pages` one after the other, without error, each answer
naming the next page and the last one reporting next page 0. -/
inductive ServesChain {σ : Type} (api : PageFetch σ) :
    σ → Int → List (List Repository) → Prop where
  | last (s : σ) (page : Int) (recs : List Repository)
      (h : (api s page).1 = { repo := recs, resp := some { NextPage := 0 }, err := none }) :
      ServesChain api s page [recs]
  | next (s : σ) (page nextPage : Int) (recs : List Repository)
      (rest : List (List Repository))
      (h : (api s page).1 =
        { repo := recs, resp := some { NextPage := nextPage }, err := none })
      (hnext : nextPage ≠ 0) (hrest : ServesChain api (api s page).2 nextPage rest) :
      ServesChain api s page (recs :: rest)

/-! ## Renderer: `extend` and `buildCollectContent` -/

/-- Go's `strings.ReplaceAll(s, old, new)` (equally `strings.Replace` with
`n = -1`) for patterns of one rune: every occurrence of `old` becomes `new`. -/
def replaceRune (s : String) (old new : Char) : String :=
  String.mk (s.data.map (fun c => if c = old then new else c))

/-- Go's `strings.Replace(s, old, new, -1)` for a non-empty `old`, on the runes
of the strings: the text is scanned from the left, every occurrence of `old`
found is replaced by `new` and the scan resumes behind it.  The first argument
bounds the number of steps. -/
def replaceAllRunes (old new : List Char) : Nat → List Char → List Char
  | 0, s => s
  | _ + 1, [] => []
  | fuel + 1, c :: s =>
    if old.isPrefixOf (c :: s) then new ++ replaceAllRunes old new fuel ((c :: s).drop old.length)
    else c :: replaceAllRunes old new fuel s

/-- The verb `%d` applied to a length. -/
def formatDecimal (n : Nat) : String := Nat.repr n

/-- Go's `appendInt` of package `time`: a sign for a negative number, then the
decimal digits padded with zeros on the left to `width`. -/
def appendInt (x : Int) (width : Nat) : String :=
  (if x < 0 then "-" else "") ++
    String.mk (List.replicate (width - (Nat.repr x.natAbs).length) (Char.ofNat 48)) ++
    Nat.repr x.natAbs

/-- The call `Format("2006-01")`: year on four digits, a hyphen, month on two. -/
def Timestamp.Format (t : Timestamp) : String :=
  appendInt t.year 4 ++ "-" ++ appendInt (t.month : Int) 2

/-- A finite IEEE-754 binary64 number: its sign and its magnitude counted in
units of `2^(-1074)`, the spacing of the smallest binary64 numbers (every finite
binary64 number is a whole number of these units). -/
structure Float64 where
  neg : Bool
  num : Nat
deriving DecidableEq

/-- The number of units of `2^(-1074)` in 1. -/
def float64Unit : Nat := 2 ^ 1074

/-- Helper of `log2Floor`, with a recursion budget. -/
def log2FloorAux : Nat → Nat → Nat
  | 0, _ => 0
  | fuel + 1, n => if n < 2 then 0 else log2FloorAux fuel (n / 2) + 1

/-- The position of the leading bit of `n` (0 for `n = 0`). -/
def log2Floor (n : Nat) : Nat := log2FloorAux n n

/-- The integer nearest to `a / b`, ties going to the even one. -/
def roundHalfEven (a b : Nat) : Nat :=
  let q := a / b
  let r := a % b
  if 2 * r < b then q else if b < 2 * r then q + 1 else if q % 2 = 0 then q else q + 1

/-- Rounding to binary64, round-to-nearest-even: the binary64 magnitude (in
units of `2^(-1074)`) nearest to the exact magnitude `a / b` units.  The result
keeps 53 significant bits; magnitudes under `2^53` units lie on the unit grid.
Overflow to infinity does not arise for the magnitudes used here. -/
def roundToFloat64 (a b : Nat) : Nat :=
  let e := log2Floor (a / b) - 52
  roundHalfEven a (b * 2 ^ e) * 2 ^ e

/-- The conversion `float64(x)` of an `int`. -/
def Float64.ofInt (x : Int) : Float64 :=
  { neg := decide (x < 0), num := roundToFloat64 (x.natAbs * float64Unit) 1 }

/-- The binary64 quotient `x / y`, for `y` other than zero. -/
def Float64.div (x y : Float64) : Float64 :=
  { neg := xor x.neg y.neg, num := roundToFloat64 (x.num * float64Unit) y.num }

/-- The verb `%.1f`: the exact value is rounded to one decimal, ties to even,
and written as integer part, point, one digit (with the sign of the number). -/
def formatF1 (x : Float64) : String :=
  let t := roundHalfEven (x.num * 10) float64Unit
  (if x.neg then "-" else "") ++ Nat.repr (t / 10) ++ "." ++ Nat.repr (t % 10)

/-- The function `extend` (lines 72-82). -/
def extend (repo : Repository) : String :=
  let time :=
    match repo.PushedAt with
    | none => ""
    | some t => t.Format
  let stargazers := repo.GetStargazersCount
  let forks := repo.GetForksCount
  "pushed_at:" ++ time ++
    " star:" ++ formatF1 (Float64.div (Float64.ofInt stargazers) (Float64.ofInt 1000)) ++
    "k fork:" ++ formatF1 (Float64.div (Float64.ofInt forks) (Float64.ofInt 1000)) ++ "k"

/-- The body of the first loop of `buildCollectContent` (lines 55-56): the
index line of one group is written to the builder. -/
def writeIndexLine (lowerRune : Char → Char) (sb : String) (v : group) : String :=
  let anchor := replaceRune (toLower lowerRune v.name) (Char.ofNat 32) (Char.ofNat 45)
  sb ++ ("- [" ++ v.name ++ "](#" ++ anchor ++ ") (" ++ formatDecimal v.repo.length ++ ")\n")

/-- The body of the inner loop (lines 62-64): the line of one record. -/
def writeRecordLine (sb : String) (repo : Repository) : String :=
  let description := replaceRune repo.GetDescription (Char.ofNat 10) (Char.ofNat 32)
  sb ++ ("- [" ++ repo.GetFullName ++ "](" ++ repo.GetHTMLURL ++ ") " ++ extend repo ++ " " ++
    description ++ "\n")

/-- The body of the second loop (lines 60-66): the section of one group. -/
def writeSection (sb : String) (v : group) : String :=
  let sb1 := sb ++ ("## " ++ v.name ++ "\n\n")
  let sb2 := v.repo.foldl writeRecordLine sb1
  sb2 ++ "\n"

/-- The function `buildCollectContent` (lines 51-70); the result is the text
held by the builder. -/
def buildCollectContent (lowerRune : Char → Char) (groups : List group) : String :=
  let sb := ""
  let sb1 := groups.foldl (writeIndexLine lowerRune) sb
  let sb2 := sb1 ++ "\n"
  groups.foldl writeSection sb2

/-- The number of tenths that `extend` shows for a count `x`: the binary64
quotient `float64(x)/1000` rounded to one decimal, ties to even. -/
def shownTenths (x : Int) : Nat :=
  roundHalfEven ((Float64.div (Float64.ofInt x) (Float64.ofInt 1000)).num * 10) float64Unit

/-! ## Orchestrator: the loops of `main` -/

/-- The constant `user` of type `usertype`. -/
def user : String := "user"

/-- The constant `org` of type `usertype`. -/
def org : String := "org"

/-- The Go type `collectConfig`: target name, target kind, output file. -/
structure collectConfig where
  Name : String
  UserType : String
  OutputFile : String
deriving DecidableEq

/-- The loop of lines 134-140, started at index `i`: an entry whose kind is
neither `user` nor `org` is cut out by `append(configs[:i], configs[i+1:]...)`
and the index stays, otherwise the index moves on.  The first argument bounds
the number of iterations; `none` says the bound was reached. -/
def filterConfigs : Nat → List collectConfig → Nat → Option (List collectConfig)
  | 0, configs, i => if i < configs.length then none else some configs
  | fuel + 1, configs, i =>
    if i < configs.length then
      match configs[i]? with
      | none => none
      | some c =>
        if c.UserType ≠ user ∧ c.UserType ≠ org then
          filterConfigs fuel (configs.take i ++ configs.drop (i + 1)) i
        else filterConfigs fuel configs (i + 1)
    else some configs

/-- One element of the answer of `Activity.ListStarred`. -/
structure StarredRepository where
  Repository : Repository
deriving DecidableEq

/-- The two listing calls of the GitHub client that `main` uses.  Each takes
the state of the outside world, a name and `ListOptions.Page`, and hands back
its three results and the new state. -/
structure Client (σ : Type) where
  ListStarred : σ → String → Int →
    (List StarredRepository × Option Response × Option GoError) × σ
  ListByOrg : σ → String → Int → (List Repository × Option Response × Option GoError) × σ

/-- The function `starredByUser` (lines 235-250). -/
def starredByUser {σ : Type} (client : Client σ) (username : String) : PageFetch σ :=
  fun s page =>
    let answer := client.ListStarred s username page
    match answer.1.2.2 with
    | some e => ({ repo := [], resp := none, err := some e }, answer.2)
    | none =>
      ({ repo := answer.1.1.map (fun v => v.Repository), resp := answer.1.2.1, err := none },
        answer.2)

/-- The function `reposByOrg` (lines 252-263). -/
def reposByOrg {σ : Type} (client : Client σ) (org : String) : PageFetch σ :=
  fun s page =>
    let answer := client.ListByOrg s org page
    match answer.1.2.2 with
    | some e => ({ repo := [], resp := none, err := some e }, answer.2)
    | none => ({ repo := answer.1.1, resp := answer.1.2.1, err := none }, answer.2)

/-- The package-level templates `starsDesc`, `reposDesc` and `license`, which
are declared outside `main.go`; each field is `fmt.Sprintf` of the template
applied to its arguments. -/
structure Templates where
  starsDesc : Nat → String
  reposDesc : String → Nat → String
  license : String → String → String

/-- What `main` is run with: the sort, the case table, the templates and the
GitHub client. -/
structure Env (σ : Type) where
  sorter : SliceSorter
  lowerRune : Char → Char
  templates : Templates
  client : Client σ

/-- The function `buildUserStartContent` (lines 293-297); `none` when
`collectRepository` fails. -/
def buildUserStartContent {σ : Type} (E : Env σ) (u : List Repository) (licenseUser : String)
    (_config : collectConfig) : Option String :=
  match collectRepository E.sorter E.lowerRune u with
  | none => none
  | some repoGroup =>
    some (E.templates.starsDesc u.length ++ buildCollectContent E.lowerRune repoGroup ++
      E.templates.license licenseUser licenseUser)

/-- The function `buildOrgReposContent` (lines 299-303). -/
def buildOrgReposContent {σ : Type} (E : Env σ) (u : List Repository) (licenseUser : String)
    (config : collectConfig) : Option String :=
  match collectRepository E.sorter E.lowerRune u with
  | none => none
  | some repoGroup =>
    some (E.templates.reposDesc config.Name u.length ++
      buildCollectContent E.lowerRune repoGroup ++
      E.templates.license licenseUser licenseUser)

/-- The constant `math.MaxInt32`. -/
def MaxInt32 : Int := 2147483647

/-- The state of the outside world after the listed invocations of `api`. -/
def worldAfter {σ : Type} (api : PageFetch σ) (s : σ) (calls : List Call) : σ :=
  calls.foldl (fun w c => (api w c.page).2) s

/-- The switch of lines 157-168 when the kind selects the page source `api`
and the document builder `build`: the records are fetched with `queryList` and
the content stays empty unless the fetch returned no error.  The result is the
content and the state of the world afterwards; `none` when `queryList` or the
builder fails or the budget of invocations is used up. -/
def fetchContent {σ : Type} (api : PageFetch σ) (build : List Repository → Option String)
    (fuel : Nat) (s : σ) : Option (String × σ) :=
  match (queryList api s MaxInt32 fuel).2 with
  | Outcome.returned u err =>
    match err with
    | none =>
      match build u with
      | none => none
      | some content => some (content, worldAfter api s (queryList api s MaxInt32 fuel).1)
    | some _ => some ("", worldAfter api s (queryList api s MaxInt32 fuel).1)
  | Outcome.failed => none
  | Outcome.unfinished => none

/-- The switch of lines 156-168: the content of one target. -/
def targetContent {σ : Type} (E : Env σ) (fuel : Nat) (username : String) (s : σ)
    (c : collectConfig) : Option (String × σ) :=
  if c.UserType = user then
    fetchContent (starredByUser E.client c.Name)
      (fun u => buildUserStartContent E u username c) fuel s
  else if c.UserType = org then
    fetchContent (reposByOrg E.client c.Name)
      (fun u => buildOrgReposContent E u username c) fuel s
  else some ("", s)

/-- The variables of the loop of lines 155-174: the outside world, the map
`collectRepos` (the publish set) and the slice `nofile` (the print list). -/
structure CollectState (σ : Type) where
  world : σ
  collectRepos : String → Option String
  nofile : List String

/-- One iteration of the loop of lines 155-174. -/
def collectTarget {σ : Type} (E : Env σ) (fuel : Nat) (username : String)
    (st : CollectState σ) (c : collectConfig) : Option (CollectState σ) :=
  match targetContent E fuel username st.world c with
  | none => none
  | some (content, w) =>
    if c.OutputFile ≠ "" ∧ content ≠ "" then
      some { world := w,
             collectRepos := fun k => if k = c.OutputFile then some content
                                       else st.collectRepos k,
             nofile := st.nofile }
    else some { world := w, collectRepos := st.collectRepos, nofile := st.nofile ++ [content] }

/-- The loop of lines 155-174 over the targets that remain. -/
def collectTargets {σ : Type} (E : Env σ) (fuel : Nat) (username : String) :
    CollectState σ → List collectConfig → Option (CollectState σ)
  | st, [] => some st
  | st, c :: rest =>
    match collectTarget E fuel username st c with
    | none => none
    | some st1 => collectTargets E fuel username st1 rest

/-- The contents computed for the targets, in order, from the world `s` on. -/
def targetContents {σ : Type} (E : Env σ) (fuel : Nat) (username : String) :
    σ → List collectConfig → Option (List String)
  | _, [] => some []
  | s, c :: rest =>
    match targetContent E fuel username s c with
    | none => none
    | some (content, w) => (targetContents E fuel username w rest).map (fun l => content :: l)

/-- The kinds that the filter loop keeps. -/
def validKind (c : collectConfig) : Bool := decide (c.UserType = user ∨ c.UserType = org)

/-- The page source that the switch of lines 157-168 selects for a target
whose kind is `user` or `org`. -/
def sourceOf {σ : Type} (E : Env σ) (c : collectConfig) : PageFetch σ :=
  if c.UserType = user then starredByUser E.client c.Name else reposByOrg E.client c.Name

/-- The header that the document builders put before the rendered body: the
stars template for a `user`, the repositories template for an `org`. -/
def headerOf {σ : Type} (E : Env σ) (c : collectConfig) (count : Nat) : String :=
  if c.UserType = user then E.templates.starsDesc count
  else E.templates.reposDesc c.Name count

/-! ## Commit Composer: `commit` -/

/-- The Go type `github.GitObject`, as far as it is used. -/
structure GitObject where
  SHA : Option String
deriving DecidableEq

/-- The Go type `github.Reference`, as far as it is used. -/
structure Reference where
  Ref : String
  Object : GitObject
deriving DecidableEq

/-- The Go type `github.TreeEntry`; the field `Type` is `EntryType` here. -/
structure TreeEntry where
  Path : Option String
  EntryType : Option String
  Content : Option String
  Mode : Option String
deriving DecidableEq

/-- The Go type `github.Tree`, as far as it is used. -/
structure Tree where
  SHA : Option String
  Entries : List TreeEntry
deriving DecidableEq

/-- The Go type `github.CommitAuthor`; the date is a reading of the clock. -/
structure CommitAuthor where
  Date : Nat
  Name : String
  Email : String
deriving DecidableEq

/-- The Go type `github.Commit`, as far as it is used. -/
inductive Commit where
  | mk (SHA : Option String) (Author : Option CommitAuthor) (Message : Option String)
      (Tree : Option Tree) (Parents : List Commit)

/-- The field `SHA` of a commit. -/
def Commit.SHA : Commit → Option String
  | Commit.mk sha _ _ _ _ => sha

/-- The field `Tree` of a commit. -/
def Commit.Tree : Commit → Option Tree
  | Commit.mk _ _ _ tree _ => tree

/-- The field `Parents` of a commit. -/
def Commit.Parents : Commit → List Commit
  | Commit.mk _ _ _ _ parents => parents

/-- The assignment `c.SHA = sha`. -/
def Commit.setSHA : Commit → Option String → Commit
  | Commit.mk _ author message tree parents, sha => Commit.mk sha author message tree parents

/-- The Go type `github.RepositoryCommit`, as far as it is used. -/
structure RepositoryCommit where
  SHA : Option String
  Commit : Commit

/-- The name of a ref as the client library addresses it: `GetRef` and
`UpdateRef` both strip a leading "refs/" from the name they are given. -/
def refName (ref : String) : String :=
  String.mk (if "refs/".data.isPrefixOf ref.data then ref.data.drop 5 else ref.data)

/-- The object store behind the five calls of `commit`, with explicit state `τ`.
Every call takes the state, the owner and the repository, and hands back its
result (an error or a value; `UpdateRef` is only asked for its error) and the
new state.  `tip` observes the commit SHA that a ref points at.  The laws are
what the store is relied on for: only `UpdateRef` moves a ref; `GetRef` hands
back the ref it was asked for, with the SHA the ref points at; `GetCommit`
hands back the commit with the SHA it was asked for; and a successful
`UpdateRef` leaves the ref pointing at the SHA it was given. -/
structure ObjectStore (τ : Type) where
  GetRef : τ → String → String → String → Except GoError Reference × τ
  CreateTree : τ → String → String → String → List TreeEntry → Except GoError Tree × τ
  GetCommit : τ → String → String → String → Except GoError RepositoryCommit × τ
  CreateCommit : τ → String → String → Commit → Except GoError Commit × τ
  UpdateRef : τ → String → String → Reference → Bool → Option GoError × τ
  tip : τ → String → String → String → Option String
  getRef_tip : ∀ s owner repo ref, tip (GetRef s owner repo ref).2 = tip s
  createTree_tip : ∀ s owner repo base entries,
    tip (CreateTree s owner repo base entries).2 = tip s
  getCommit_tip : ∀ s owner repo sha, tip (GetCommit s owner repo sha).2 = tip s
  createCommit_tip : ∀ s owner repo c, tip (CreateCommit s owner repo c).2 = tip s
  getRef_ok : ∀ s owner repo ref r, (GetRef s owner repo ref).1 = Except.ok r →
    refName r.Ref = refName ref ∧ r.Object.SHA = tip s owner repo (refName ref)
  getCommit_ok : ∀ s owner repo sha rc, (GetCommit s owner repo sha).1 = Except.ok rc →
    rc.SHA = some sha
  updateRef_ok : ∀ s owner repo r force, (UpdateRef s owner repo r force).1 = none →
    tip (UpdateRef s owner repo r force).2 owner repo (refName r.Ref) = r.Object.SHA

/-- A call of the object store, with its arguments. -/
inductive StoreOp where
  | getRef (owner repo ref : String)
  | createTree (owner repo baseTree : String) (entries : List TreeEntry)
  | getCommit (owner repo sha : String)
  | createCommit (owner repo : String) (commit : Commit)
  | updateRef (owner repo : String) (ref : Reference) (force : Bool)

/-- The place of a call in the protocol, from 1 (`getRef`) to 5 (`updateRef`). -/
def StoreOp.step : StoreOp → Nat
  | StoreOp.getRef _ _ _ => 1
  | StoreOp.createTree _ _ _ _ => 2
  | StoreOp.getCommit _ _ _ => 3
  | StoreOp.createCommit _ _ _ => 4
  | StoreOp.updateRef _ _ _ _ => 5

/-- One invocation of the object store: the call and the error it returned. -/
structure StoreCall where
  op : StoreOp
  err : Option GoError

/-- How a run of `commit` ends. -/
inductive CommitOutcome where
  /-- The function returned this error (`none` is nil). -/
  | returned (err : Option GoError)
  /-- A nil SHA was dereferenced. -/
  | failed
deriving DecidableEq

/-- A run of `commit`: how it ended, the state of the object store afterwards
and the invocations made, in order. -/
structure CommitRun (τ : Type) where
  outcome : CommitOutcome
  state : τ
  calls : List StoreCall

/-- The function `commit` (lines 193-233).  `now` is the reading of the clock
taken by `time.Now()`, `message` the package-level commit message, `contents`
the entries of the map in the order in which `range` visits them. -/
def commit {τ : Type} (store : ObjectStore τ) (now : Nat) (message : String) (s : τ)
    (owner repo branch commitAuthor commitEmail : String)
    (contents : List (String × String)) : CommitRun τ :=
  let a1 := store.GetRef s owner repo ("heads/" ++ branch)
  let op1 := StoreOp.getRef owner repo ("heads/" ++ branch)
  match a1.1 with
  | Except.error e =>
    { outcome := CommitOutcome.returned (some e), state := a1.2,
      calls := [{ op := op1, err := some e }] }
  | Except.ok ref =>
    let entries : List TreeEntry := contents.map (fun p =>
      { Path := some p.1, EntryType := some "blob", Content := some p.2,
        Mode := some "100644" })
    match ref.Object.SHA with
    | none =>
      { outcome := CommitOutcome.failed, state := a1.2,
        calls := [{ op := op1, err := none }] }
    | some sha =>
      let a2 := store.CreateTree a1.2 owner repo sha entries
      let op2 := StoreOp.createTree owner repo sha entries
      match a2.1 with
      | Except.error e =>
        { outcome := CommitOutcome.returned (some e), state := a2.2,
          calls := [{ op := op1, err := none }, { op := op2, err := some e }] }
      | Except.ok tree =>
        let a3 := store.GetCommit a2.2 owner repo sha
        let op3 := StoreOp.getCommit owner repo sha
        match a3.1 with
        | Except.error e =>
          { outcome := CommitOutcome.returned (some e), state := a3.2,
            calls := [{ op := op1, err := none }, { op := op2, err := none },
              { op := op3, err := some e }] }
        | Except.ok parent =>
          let parentCommit := parent.Commit.setSHA parent.SHA
          let author : CommitAuthor := { Date := now, Name := commitAuthor, Email := commitEmail }
          let newObject := Commit.mk none (some author) (some message) (some tree) [parentCommit]
          let a4 := store.CreateCommit a3.2 owner repo newObject
          let op4 := StoreOp.createCommit owner repo newObject
          match a4.1 with
          | Except.error e =>
            { outcome := CommitOutcome.returned (some e), state := a4.2,
              calls := [{ op := op1, err := none }, { op := op2, err := none },
                { op := op3, err := none }, { op := op4, err := some e }] }
          | Except.ok newCommit =>
            let ref1 : Reference := { Ref := ref.Ref, Object := { SHA := newCommit.SHA } }
            let a5 := store.UpdateRef a4.2 owner repo ref1 false
            { outcome := CommitOutcome.returned a5.1, state := a5.2,
              calls := [{ op := op1, err := none }, { op := op2, err := none },
                { op := op3, err := none }, { op := op4, err := none },
                { op := StoreOp.updateRef owner repo ref1 false, err := a5.1 }] }

/-! ## Sample data for the worked instances -/

/-- A record with the given display name and language label and no other field. -/
def sampleRepo (name language : String) : Repository :=
  { Name := some name, FullName := none, Language := some language, Description := none,
    HTMLURL := none, PushedAt := none, StargazersCount := none, ForksCount := none }

/-- A source of two pages: page 1 holds two records and names page 2, which
holds one record and is the last. -/
def twoPageSource : PageFetch Unit := fun _ page =>
  if page = 1 then
    ({ repo := [sampleRepo "a" "Go", sampleRepo "b" "C"], resp := some { NextPage := 2 },
       err := none }, ())
  else
    ({ repo := [sampleRepo "c" "Go"], resp := some { NextPage := 0 }, err := none }, ())

/-- A source whose first page is empty but names page 2, which holds one
record and is the last. -/
def emptyFirstPageSource : PageFetch Unit := fun _ page =>
  if page = 1 then ({ repo := [], resp := some { NextPage := 2 }, err := none }, ())
  else ({ repo := [sampleRepo "c" "Go"], resp := some { NextPage := 0 }, err := none }, ())

/-- A source whose first page holds one record and names page 2, and whose
second call fails while still handing back one record. -/
def failingSource : PageFetch Unit := fun _ page =>
  if page = 1 then
    ({ repo := [sampleRepo "a" "Go"], resp := some { NextPage := 2 }, err := none }, ())
  else ({ repo := [sampleRepo "b" "C"], resp := none, err := some "rate limit" }, ())

/-- A record with the given star and fork counts, pushed in July 2020. -/
def countedRepo (stars forks : Int) : Repository :=
  { Name := some "repo", FullName := some "owner/repo", Language := some "Go",
    Description := some "text", HTMLURL := some "https://example.org/owner/repo",
    PushedAt := some { year := 2020, month := 7 },
    StargazersCount := some stars, ForksCount := some forks }

/-! ## Lemmas on the library functions -/

theorem bytesLess_irrefl (l : List Nat) : bytesLess l l = false := by
  induction l with
  | nil => rfl
  | cons a l ih => simp [bytesLess, ih]

theorem bytesLess_trans : ∀ (a b c : List Nat),
    bytesLess a b = true → bytesLess b c = true → bytesLess a c = true
  | _, [], _, h, _ => by cases ‹List Nat› <;> simp [bytesLess] at h
  | _, _ :: _, [], _, h => by simp [bytesLess] at h
  | [], _ :: _, _ :: _, _, _ => by simp [bytesLess]
  | x :: a, y :: b, z :: c, h1, h2 => by
    simp only [bytesLess] at h1 h2 ⊢
    split_ifs at h1 h2 ⊢ <;> first | rfl | omega | exact bytesLess_trans a b c h1 h2

theorem bytesLess_total : ∀ (a b : List Nat),
    bytesLess a b = false → bytesLess b a = false → a = b
  | [], [], _, _ => rfl
  | [], _ :: _, h, _ => by simp [bytesLess] at h
  | _ :: _, [], _, h => by simp [bytesLess] at h
  | x :: a, y :: b, h1, h2 => by
    simp only [bytesLess] at h1 h2
    split_ifs at h1 h2
    have : x = y := by omega
    rw [this, bytesLess_total a b h1 h2]

theorem utf8Bytes_append_inj (c d : Char) (l m : List Nat)
    (h : utf8Bytes c ++ l = utf8Bytes d ++ m) : c = d ∧ l = m := by
  have hc : c.toNat < 1114112 := by
    have := c.valid
    simp only [Char.toNat]
    rcases this with h | h
    · omega
    · omega
  have hd : d.toNat < 1114112 := by
    have := d.valid
    simp only [Char.toNat]
    rcases this with h | h
    · omega
    · omega
  have key : c.toNat = d.toNat ∧ l = m := by
    simp only [utf8Bytes] at h
    split_ifs at h <;> simp at h <;> first | (exfalso; omega) | exact ⟨by omega, by tauto⟩
  refine ⟨?_, key.2⟩
  apply Char.ext
  apply UInt32.ext
  exact key.1

theorem flatMap_utf8Bytes_inj : ∀ (l m : List Char),
    l.flatMap utf8Bytes = m.flatMap utf8Bytes → l = m
  | [], [], _ => rfl
  | [], d :: m, h => by
    exfalso
    simp only [List.flatMap_nil, List.flatMap_cons] at h
    have h1 := congrArg List.length h
    simp only [utf8Bytes] at h1
    split_ifs at h1 <;> simp at h1
  | c :: l, [], h => by
    exfalso
    simp only [List.flatMap_nil, List.flatMap_cons] at h
    have h1 := congrArg List.length h
    simp only [utf8Bytes] at h1
    split_ifs at h1 <;> simp at h1
  | c :: l, d :: m, h => by
    simp only [List.flatMap_cons] at h
    obtain ⟨h1, h2⟩ := utf8Bytes_append_inj c d _ _ h
    rw [h1, flatMap_utf8Bytes_inj l m h2]

theorem goBytes_inj (s t : String) (h : goBytes s = goBytes t) : s = t := by
  cases s; cases t
  simp only [goBytes] at h
  rw [flatMap_utf8Bytes_inj _ _ h]

theorem stringLess_irrefl (s : String) : stringLess s s = false :=
  bytesLess_irrefl _

theorem stringLess_trans (a b c : String)
    (h1 : stringLess a b = true) (h2 : stringLess b c = true) : stringLess a c = true :=
  bytesLess_trans _ _ _ h1 h2

theorem stringLess_total (a b : String)
    (h1 : stringLess a b = false) (h2 : stringLess b a = false) : a = b :=
  goBytes_inj a b (bytesLess_total _ _ h1 h2)

/-- Any comparison of the form `key a < key b` is a strict weak ordering. -/
theorem strictWeakOrder_of_key {α : Type} (key : α → String) :
    StrictWeakOrder (fun a b => stringLess (key a) (key b)) where
  irrefl a := stringLess_irrefl _
  trans a b c := stringLess_trans _ _ _
  incomp a b c h1 h2 h3 h4 := by
    have e1 := stringLess_total _ _ h1 h2
    have e2 := stringLess_total _ _ h3 h4
    simp only [e1, e2, stringLess_irrefl, and_self]

/-! ### Go's insertion sort meets the contract of `sort.Slice` -/

theorem insertLeftwards_perm {α : Type} (less : α → α → Bool) (x : α) (l : List α) :
    (insertLeftwards less x l).Perm (x :: l) := by
  induction l with
  | nil => exact List.Perm.refl _
  | cons y rest ih =>
    simp only [insertLeftwards]
    split_ifs
    · exact (List.Perm.cons y ih).trans (List.Perm.swap x y rest)
    · exact List.Perm.refl _

theorem foldl_insertLeftwards_perm {α : Type} (less : α → α → Bool) (l acc : List α) :
    (l.foldl (fun revPrefix x => insertLeftwards less x revPrefix) acc).Perm (l ++ acc) := by
  induction l generalizing acc with
  | nil => exact List.Perm.refl _
  | cons x l ih =>
    simp only [List.foldl_cons]
    refine (ih _).trans ?_
    refine (List.Perm.append_left l (insertLeftwards_perm less x acc)).trans ?_
    exact List.perm_middle

theorem goInsertionSort_perm {α : Type} (less : α → α → Bool) (l : List α) :
    (goInsertionSort less l).Perm l := by
  unfold goInsertionSort
  refine (List.reverse_perm _).trans ?_
  have := foldl_insertLeftwards_perm less l []
  rwa [List.append_nil] at this

theorem insertLeftwards_sorted {α : Type} (less : α → α → Bool) (hw : StrictWeakOrder less)
    (x : α) (l : List α) (hl : l.Pairwise (fun a b => less a b = false)) :
    (insertLeftwards less x l).Pairwise (fun a b => less a b = false) := by
  induction l with
  | nil => simp [insertLeftwards]
  | cons y rest ih =>
    rw [List.pairwise_cons] at hl
    simp only [insertLeftwards]
    split_ifs with hxy
    · rw [List.pairwise_cons]
      refine ⟨?_, ih hl.2⟩
      intro z hz
      rcases List.mem_cons.mp ((insertLeftwards_perm less x rest).mem_iff.mp hz) with hz | hz
      · subst hz
        cases hyx : less y z
        · rfl
        · have := hw.trans _ _ _ hxy hyx
          rw [hw.irrefl] at this
          cases this
      · exact hl.1 z hz
    · rw [List.pairwise_cons]
      refine ⟨?_, List.pairwise_cons.mpr hl⟩
      intro z hz
      rcases List.mem_cons.mp hz with hz | hz
      · subst hz; simpa using hxy
      · have hyz := hl.1 z hz
        -- less x y = false, less y z = false ⟹ less x z = false
        cases hxz : less x z
        · rfl
        · exfalso
          have hxy1 : less x y = false := by simpa using hxy
          cases hzy : less z y
          · cases hyx : less y x
            · have := (hw.incomp x y z hxy1 hyx hyz hzy).1
              rw [hxz] at this; cases this
            · have := hw.trans _ _ _ hyx hxz
              rw [hyz] at this; cases this
          · have := hw.trans _ _ _ hxz hzy
            rw [hxy1] at this; cases this

theorem foldl_insertLeftwards_sorted {α : Type} (less : α → α → Bool)
    (hw : StrictWeakOrder less) (l acc : List α)
    (hacc : acc.Pairwise (fun a b => less a b = false)) :
    (l.foldl (fun revPrefix x => insertLeftwards less x revPrefix) acc).Pairwise
      (fun a b => less a b = false) := by
  induction l generalizing acc with
  | nil => exact hacc
  | cons x l ih => exact ih _ (insertLeftwards_sorted less hw x acc hacc)

theorem goInsertionSort_sorted {α : Type} (less : α → α → Bool) (l : List α)
    (hw : StrictWeakOrder less) :
    (goInsertionSort less l).Pairwise (fun a b => less b a = false) := by
  unfold goInsertionSort
  rw [List.pairwise_reverse]
  exact foldl_insertLeftwards_sorted less hw l [] List.Pairwise.nil

/-- Go's insertion sort meets the contract of `sort.Slice`. -/
def insertionSorter : SliceSorter where
  sort := fun less l => goInsertionSort less l
  perm := fun less l => goInsertionSort_perm less l
  sorted := fun less l hw => goInsertionSort_sorted less l hw

/-! ## The grouping loop -/

/-- Invariant of the grouping loop once the records `done` have been filed. -/
structure GroupInv (st : GroupState) (done : List Repository) : Prop where
  len : st.groups.length = st.index
  head : st.groups[0]? = some { name := "", repo := [] }
  lookup : ∀ k, st.indexMap k ≠ 0 → ∃ g, st.groups[st.indexMap k]? = some g ∧ g.name = k
  named : ∀ i g, 0 < i → st.groups[i]? = some g → st.indexMap g.name = i
  keys : ∀ i g, 0 < i → st.groups[i]? = some g →
    g.repo ≠ [] ∧ (∀ r ∈ g.repo, groupKey r = g.name) ∧ g.repo.Sublist done
  perm : (st.groups.flatMap (fun g => g.repo)).Perm done

theorem appendRepoAt_spec (r : Repository) : ∀ (gs : List group) (i : Nat) (g : group),
    gs[i]? = some g → ∃ gs1, appendRepoAt gs i r = some gs1 ∧
      gs1.length = gs.length ∧
      gs1[i]? = some { g with repo := g.repo ++ [r] } ∧
      (∀ j, j ≠ i → gs1[j]? = gs[j]?) ∧
      (gs1.flatMap (fun g => g.repo)).Perm (r :: gs.flatMap (fun g => g.repo))
  | [], i, g, h => by simp at h
  | g0 :: gs, 0, g, h => by
    simp only [List.getElem?_cons_zero, Option.some.injEq] at h
    subst h
    refine ⟨_, rfl, rfl, by simp, ?_, ?_⟩
    · intro j hj
      cases j with
      | zero => exact absurd rfl hj
      | succ j => simp
    · simp only [List.flatMap_cons, List.append_assoc]
      refine (List.Perm.append_left g0.repo ?_).trans List.perm_middle
      simp
  | g0 :: gs, i + 1, g, h => by
    simp only [List.getElem?_cons_succ] at h
    obtain ⟨gs1, h1, h2, h3, h4, h5⟩ := appendRepoAt_spec r gs i g h
    refine ⟨g0 :: gs1, by simp [appendRepoAt, h1], by simp [h2], by simpa using h3, ?_, ?_⟩
    · intro j hj
      cases j with
      | zero => simp
      | succ j =>
        simp only [List.getElem?_cons_succ]
        exact h4 j (fun e => hj (by rw [e]))
    · simp only [List.flatMap_cons]
      exact (List.Perm.append_left g0.repo h5).trans List.perm_middle

theorem initialState_inv : GroupInv initialState [] where
  len := rfl
  head := rfl
  lookup k hk := absurd rfl hk
  named i g hi h := by
    cases i with
    | zero => omega
    | succ i => simp [initialState] at h
  keys i g hi h := by
    cases i with
    | zero => omega
    | succ i => simp [initialState] at h
  perm := by simp [initialState]

theorem collectStep_inv (st : GroupState) (done : List Repository) (r : Repository)
    (inv : GroupInv st done) :
    ∃ st1, collectStep st r = some st1 ∧ GroupInv st1 (done ++ [r]) := by
  by_cases h0 : st.indexMap (groupKey r) = 0
  · -- a new group is opened at position `index`
    have hnew : (st.groups ++ [({ name := groupKey r, repo := [] } : group)])[st.index]? =
        some { name := groupKey r, repo := [] } := by
      rw [← inv.len]; simp
    obtain ⟨gs1, e1, e2, e3, e4, e5⟩ := appendRepoAt_spec r _ _ _ hnew
    have hold : ∀ j, j < st.index → gs1[j]? = st.groups[j]? := by
      intro j hj
      rw [e4 j (by omega), List.getElem?_append_left (by rw [inv.len]; exact hj)]
    have hpos : 0 < st.index := by
      have := inv.head
      rw [← inv.len]
      cases hg : st.groups with
      | nil => rw [hg] at this; simp at this
      | cons a l => simp
    refine ⟨{ groups := gs1,
              indexMap := fun k => if k = groupKey r then st.index else st.indexMap k,
              index := st.index + 1 }, ?_, ?_⟩
    · simp [collectStep, h0, e1]
    · constructor
      · simp [e2, inv.len]
      · show gs1[0]? = _
        rw [hold 0 hpos]; exact inv.head
      · intro k hk
        show ∃ g, gs1[if k = groupKey r then st.index else st.indexMap k]? = some g ∧ _
        by_cases hkr : k = groupKey r
        · rw [if_pos hkr]
          exact ⟨_, e3, hkr.symm⟩
        · rw [if_neg hkr]
          have hk1 : st.indexMap k ≠ 0 := by simpa [hkr] using hk
          obtain ⟨g, hg, hgn⟩ := inv.lookup k hk1
          have hlt : st.indexMap k < st.index := by
            rw [← inv.len]
            exact (List.getElem?_eq_some.mp hg).1
          exact ⟨g, by rw [hold _ hlt]; exact hg, hgn⟩
      · intro i g hi hg
        show (if g.name = groupKey r then st.index else st.indexMap g.name) = i
        have hlt : i < st.index + 1 := by
          have := (List.getElem?_eq_some.mp hg).1
          simpa [e2, inv.len] using this
        by_cases hi1 : i = st.index
        · subst hi1
          rw [e3] at hg
          cases hg
          simp
        · rw [hold i (by omega)] at hg
          have := inv.named i g hi hg
          have hne : g.name ≠ groupKey r := by
            intro e; rw [e] at this; omega
          rw [if_neg hne]; exact this
      · intro i g hi hg
        by_cases hi1 : i = st.index
        · subst hi1
          rw [e3] at hg
          cases hg
          refine ⟨by simp, by simp, ?_⟩
          simp
        · have hlt : i < st.index + 1 := by
            have := (List.getElem?_eq_some.mp hg).1
            simpa [e2, inv.len] using this
          rw [hold i (by omega)] at hg
          obtain ⟨k1, k2, k3⟩ := inv.keys i g hi hg
          exact ⟨k1, k2, k3.trans (List.sublist_append_left _ _)⟩
      · show (gs1.flatMap _).Perm _
        refine e5.trans ?_
        rw [List.flatMap_append]
        simp only [List.flatMap_cons, List.flatMap_nil, List.append_nil]
        exact (List.Perm.cons r inv.perm).trans (List.perm_append_singleton r done).symm
  · -- the record joins the group already opened for its key
    obtain ⟨g, hg, hgn⟩ := inv.lookup _ h0
    obtain ⟨gs1, e1, e2, e3, e4, e5⟩ := appendRepoAt_spec r _ _ _ hg
    refine ⟨{ st with groups := gs1 }, ?_, ?_⟩
    · simp [collectStep, h0, e1]
    · constructor
      · simp [e2, inv.len]
      · show gs1[0]? = _
        rw [e4 0 (fun e => h0 e.symm)]; exact inv.head
      · intro k hk
        show ∃ g, gs1[st.indexMap k]? = some g ∧ _
        obtain ⟨g1, hg1, hgn1⟩ := inv.lookup k hk
        by_cases hki : st.indexMap k = st.indexMap (groupKey r)
        · rw [hki] at hg1 ⊢
          rw [hg] at hg1
          cases hg1
          exact ⟨_, e3, hgn1⟩
        · exact ⟨g1, by rw [e4 _ hki]; exact hg1, hgn1⟩
      · intro i g1 hi hg1
        show st.indexMap g1.name = i
        by_cases hi1 : i = st.indexMap (groupKey r)
        · subst hi1
          rw [e3] at hg1
          cases hg1
          exact inv.named _ g hi hg
        · rw [e4 i hi1] at hg1
          exact inv.named i g1 hi hg1
      · intro i g1 hi hg1
        by_cases hi1 : i = st.indexMap (groupKey r)
        · subst hi1
          rw [e3] at hg1
          cases hg1
          obtain ⟨_, k2, k3⟩ := inv.keys _ g hi hg
          refine ⟨by simp, ?_, ?_⟩
          · intro x hx
            rcases List.mem_append.mp hx with hx | hx
            · exact k2 x hx
            · simp only [List.mem_singleton] at hx
              rw [hx, hgn]
          · exact List.Sublist.append k3 (List.Sublist.refl _)
        · rw [e4 i hi1] at hg1
          obtain ⟨k1, k2, k3⟩ := inv.keys i g1 hi hg1
          exact ⟨k1, k2, k3.trans (List.sublist_append_left _ _)⟩
      · show (gs1.flatMap _).Perm _
        exact e5.trans ((List.Perm.cons r inv.perm).trans (List.perm_append_singleton r done).symm)

theorem collectLoop_inv : ∀ (rest : List Repository) (st : GroupState) (done : List Repository),
    GroupInv st done → ∃ st1, collectLoop st rest = some st1 ∧ GroupInv st1 (done ++ rest)
  | [], st, done, inv => ⟨st, rfl, by simpa using inv⟩
  | r :: rest, st, done, inv => by
    obtain ⟨st1, h1, inv1⟩ := collectStep_inv st done r inv
    obtain ⟨st2, h2, inv2⟩ := collectLoop_inv rest st1 (done ++ [r]) inv1
    refine ⟨st2, by simp [collectLoop, h1, h2], by simpa using inv2⟩

/-! ## The Grouper -/

/-- What the grouping loop hands to the final sort. -/
theorem collectRepository_unsorted (S : SliceSorter) (lowerRune : Char → Char)
    (repos : List Repository) :
    ∃ g : List group,
      collectRepository S lowerRune repos = some (S.sort lessByGroupName g) ∧
      (g.map (fun x => x.name)).Nodup ∧
      (∀ x ∈ g, x.repo ≠ [] ∧ (∀ r ∈ x.repo, groupKey r = x.name) ∧
        x.repo.Sublist (S.sort (lessByLowerName lowerRune) repos)) ∧
      (g.flatMap (fun x => x.repo)).Perm repos := by
  obtain ⟨st, hst, inv⟩ :=
    collectLoop_inv (S.sort (lessByLowerName lowerRune) repos) initialState [] initialState_inv
  rw [List.nil_append] at inv
  have hhead := inv.head
  cases hg : st.groups with
  | nil => rw [hg] at hhead; simp at hhead
  | cons p g =>
    rw [hg] at hhead
    simp only [List.getElem?_cons_zero, Option.some.injEq] at hhead
    have hat : ∀ i x, g[i]? = some x → st.groups[i + 1]? = some x := by
      intro i x hx; rw [hg]; simpa using hx
    refine ⟨g, ?_, ?_, ?_, ?_⟩
    · simp [collectRepository, hst, hg]
    · rw [List.nodup_iff_getElem?_ne_getElem?]
      intro i j hij hj
      simp only [List.length_map] at hj
      simp only [List.getElem?_map]
      have hi : i < g.length := by omega
      rw [List.getElem?_eq_getElem hi, List.getElem?_eq_getElem hj]
      simp only [Option.map_some', ne_eq, Option.some.injEq]
      intro e
      have h1 := inv.named (i + 1) g[i] (Nat.succ_pos i) (hat i _ (List.getElem?_eq_getElem hi))
      have h2 := inv.named (j + 1) g[j] (Nat.succ_pos j) (hat j _ (List.getElem?_eq_getElem hj))
      rw [e] at h1
      omega
    · intro x hx
      obtain ⟨i, hi⟩ := List.getElem?_of_mem hx
      exact inv.keys (i + 1) x (Nat.succ_pos i) (hat i x hi)
    · have := inv.perm
      rw [hg, List.flatMap_cons, hhead] at this
      exact this.trans (S.perm _ _)


/-- Claim C1: for every list of records `collectRepository` returns, and the
names of the returned groups are strictly ascending under byte-wise string
comparison (`stringLess`); in particular they are pairwise distinct, and a group
named "Others" is placed by that same comparison. -/
theorem collectRepository_groups_strictly_ascending (S : SliceSorter)
    (lowerRune : Char → Char) (repos : List Repository) :
    ∃ gs : List group, collectRepository S lowerRune repos = some gs ∧
      (gs.map (fun g => g.name)).Pairwise (fun a b => stringLess a b = true) ∧
      (gs.map (fun g => g.name)).Nodup := by
  obtain ⟨g, hres, hnodup, -, -⟩ := collectRepository_unsorted S lowerRune repos
  refine ⟨_, hres, ?_, ?_⟩
  · have hs := S.sorted lessByGroupName g (strictWeakOrder_of_key (fun x : group => x.name))
    have hn : (S.sort lessByGroupName g).Pairwise (fun a b => a.name ≠ b.name) := by
      have : ((S.sort lessByGroupName g).map (fun x => x.name)).Nodup :=
        ((S.perm lessByGroupName g).map _).nodup_iff.mpr hnodup
      exact List.pairwise_map.mp this
    rw [List.pairwise_map]
    refine (hs.and hn).imp ?_
    intro a b hab
    cases h : stringLess a.name b.name
    · exact absurd (stringLess_total _ _ h hab.1) hab.2
    · rfl
  · exact ((S.perm lessByGroupName g).map _).nodup_iff.mpr hnodup

/-- Claim C2: for every list of records the concatenation of the record lists
of the returned groups is a permutation of the input, and every record filed in
a group named `n` has group key `n` (its language label, or "Others" when the
label is empty). -/
theorem collectRepository_partitions_input (S : SliceSorter)
    (lowerRune : Char → Char) (repos : List Repository) :
    ∃ gs : List group, collectRepository S lowerRune repos = some gs ∧
      (gs.flatMap (fun g => g.repo)).Perm repos ∧
      ∀ g ∈ gs, ∀ r ∈ g.repo, groupKey r = g.name := by
  obtain ⟨g, hres, -, hkeys, hperm⟩ := collectRepository_unsorted S lowerRune repos
  refine ⟨_, hres, ?_, ?_⟩
  · exact ((S.perm lessByGroupName g).flatMap_right _).trans hperm
  · intro x hx
    exact (hkeys x ((S.perm lessByGroupName g).mem_iff.mp hx)).2.1

/-- The scenario of the specification, run with Go's insertion sort: "b-repo"
and "A-repo" in Go and "c-repo" without a language give the group "Go" holding
"A-repo" then "b-repo", followed by the group "Others" holding "c-repo". -/
theorem collectRepository_scenario :
    collectRepository insertionSorter Char.toLower
        [sampleRepo "b-repo" "Go", sampleRepo "A-repo" "Go", sampleRepo "c-repo" ""] =
      some [{ name := "Go", repo := [sampleRepo "A-repo" "Go", sampleRepo "b-repo" "Go"] },
            { name := "Others", repo := [sampleRepo "c-repo" ""] }] := by
  decide

/-- The group "Others" is ordered like any other name: here it comes between
"Go" and "Python". -/
theorem collectRepository_others_between :
    (collectRepository insertionSorter Char.toLower
        [sampleRepo "p" "Python", sampleRepo "o" "", sampleRepo "g" "Go"]).map
      (fun gs => gs.map (fun g => g.name)) = some ["Go", "Others", "Python"] := by
  decide

/-- Only the empty string has no bytes. -/
theorem goBytes_eq_nil (s : String) (h : goBytes s = []) : s = "" :=
  goBytes_inj s "" (by rw [h]; rfl)

theorem toLower_eq_empty (lowerRune : Char → Char) (s : String)
    (h : toLower lowerRune s = "") : s = "" := by
  cases s with
  | mk l =>
    cases l with
    | nil => rfl
    | cons c l => simp [toLower] at h; exact absurd (congrArg String.data h) (by simp)

theorem stringLess_empty_left (s : String) (h : stringLess "" s = false) : s = "" := by
  apply goBytes_eq_nil
  cases hb : goBytes s with
  | nil => rfl
  | cons a l =>
    have e : goBytes "" = [] := rfl
    simp [stringLess, hb, e, bytesLess] at h

/-- Claim C3: inside every returned group the records are in non-decreasing
order of their lower-cased display name (no record's key is less than the key
of a record before it), and no record with a non-empty display name stands
before a record of the same group whose display name is empty. -/
theorem collectRepository_records_ordered (S : SliceSorter)
    (lowerRune : Char → Char) (repos : List Repository) :
    ∃ gs : List group, collectRepository S lowerRune repos = some gs ∧
      ∀ g ∈ gs,
        g.repo.Pairwise (fun a b =>
          stringLess (toLower lowerRune b.GetName) (toLower lowerRune a.GetName) = false) ∧
        g.repo.Pairwise (fun a b => b.GetName = "" → a.GetName = "") := by
  obtain ⟨g, hres, -, hkeys, -⟩ := collectRepository_unsorted S lowerRune repos
  refine ⟨_, hres, ?_⟩
  intro x hx
  have hsub := (hkeys x ((S.perm lessByGroupName g).mem_iff.mp hx)).2.2
  have hs := S.sorted (lessByLowerName lowerRune) repos
    (strictWeakOrder_of_key (fun r : Repository => toLower lowerRune r.GetName))
  have h1 : x.repo.Pairwise (fun a b =>
      stringLess (toLower lowerRune b.GetName) (toLower lowerRune a.GetName) = false) :=
    hs.sublist hsub
  refine ⟨h1, h1.imp ?_⟩
  intro a b hab hb
  rw [hb] at hab
  have e : toLower lowerRune "" = "" := rfl
  rw [e] at hab
  exact toLower_eq_empty lowerRune _ (stringLess_empty_left _ hab)

/-! ## The Paginator -/

/-- For a non-negative `count`, `subList` hands back the first `count` records. -/
theorem subList_of_nonneg (count : Int) (h : 0 ≤ count) (repos : List Repository)
    (err : Option GoError) :
    subList count repos err = Outcome.returned (repos.take count.toNat) err := by
  unfold subList
  split_ifs with h1
  · rw [List.take_of_length_le (by omega)]
  · rfl

theorem append_if_nonempty (repos recs : List Repository) :
    (if recs.length > 0 then repos ++ recs else repos) = repos ++ recs := by
  split_ifs with h
  · rfl
  · have : recs = [] := List.length_eq_zero.mp (by omega)
    rw [this, List.append_nil]

theorem queryListLoop_chain {σ : Type} (api : PageFetch σ) (count : Int) (h0 : 0 ≤ count)
    (s : σ) (page : Int) (pages : List (List Repository)) (hc : ServesChain api s page pages) :
    ∀ (fuel : Nat) (acc : List Repository), pages.length ≤ fuel →
      (queryListLoop api count fuel s page acc).2 =
        Outcome.returned ((acc ++ pages.flatten).take count.toNat) none ∧
      (queryListLoop api count fuel s page acc).1.length ≤ pages.length := by
  induction hc with
  | last s page recs h =>
    intro fuel acc hf
    cases fuel with
    | zero => simp at hf
    | succ fuel =>
      unfold queryListLoop
      split_ifs with hlen
      · simp only [h, append_if_nonempty, subList_of_nonneg count h0]
        simp
      · rw [subList_of_nonneg count h0]
        simp only [List.flatten_cons, List.flatten_nil, List.append_nil, List.length_nil,
          Nat.zero_le, and_true, Outcome.returned.injEq]
        rw [List.take_append_of_le_length (by omega)]
  | next s page nxt recs rest h hnext hrest ih =>
    intro fuel acc hf
    cases fuel with
    | zero => simp at hf
    | succ fuel =>
      unfold queryListLoop
      split_ifs with hlen
      · simp only [h, append_if_nonempty, if_neg hnext]
        have := ih fuel (acc ++ recs) (by simpa using hf)
        refine ⟨by rw [this.1]; simp, by simpa using this.2⟩
      · rw [subList_of_nonneg count h0]
        simp only [List.length_nil, Nat.zero_le, and_true, Outcome.returned.injEq]
        rw [List.take_append_of_le_length (by omega)]

/-- Claim C4: for every limit >= 0 and every page source that serves a finite
chain of pages from page 1 without error, `queryList` (given a budget of at
least as many invocations as there are pages) returns no error and exactly the
first `min(limit, totalAvailable)` records of the concatenation of the pages. -/
theorem queryList_returns_first_min_limit_total {σ : Type} (api : PageFetch σ) (s : σ)
    (limit : Int) (pages : List (List Repository)) (fuel : Nat)
    (hlimit : 0 ≤ limit) (hchain : ServesChain api s 1 pages) (hfuel : pages.length ≤ fuel) :
    (queryList api s limit fuel).2 =
      Outcome.returned
        (pages.flatten.take (min limit.toNat pages.flatten.length)) none := by
  have := (queryListLoop_chain api limit hlimit s 1 pages hchain fuel [] hfuel).1
  rw [queryList, this, List.nil_append]
  congr 1
  rcases Nat.le_total limit.toNat pages.flatten.length with h | h
  · rw [Nat.min_eq_left h]
  · rw [Nat.min_eq_right h, List.take_of_length_le h, List.take_of_length_le (Nat.le_refl _)]


theorem queryListLoop_length_le {σ : Type} (api : PageFetch σ) (count : Int) (h0 : 0 ≤ count) :
    ∀ (fuel : Nat) (s : σ) (page : Int) (acc recs : List Repository) (e : Option GoError),
      (queryListLoop api count fuel s page acc).2 = Outcome.returned recs e →
      recs.length ≤ count.toNat := by
  have key : ∀ (l recs : List Repository) (e1 e : Option GoError),
      Outcome.returned (l.take count.toNat) e1 = Outcome.returned recs e →
      recs.length ≤ count.toNat := by
    intro l recs e1 e h
    simp only [Outcome.returned.injEq] at h
    rw [← h.1]
    exact List.length_take_le _ _
  intro fuel
  induction fuel with
  | zero =>
    intro s page acc recs e h
    unfold queryListLoop at h
    by_cases hlen : (acc.length : Int) ≤ count
    · rw [if_pos hlen] at h
      simp at h
    · rw [if_neg hlen, subList_of_nonneg count h0] at h
      exact key _ _ _ _ h
  | succ fuel ih =>
    intro s page acc recs e h
    unfold queryListLoop at h
    by_cases hlen : (acc.length : Int) ≤ count
    · rw [if_pos hlen] at h
      simp only [append_if_nonempty, subList_of_nonneg count h0] at h
      cases herr : (api s page).1.err with
      | some e1 =>
        simp only [herr] at h
        exact key _ _ _ _ h
      | none =>
        simp only [herr] at h
        cases hresp : (api s page).1.resp with
        | none => simp [hresp] at h
        | some r =>
          simp only [hresp] at h
          by_cases hn : r.NextPage = 0
          · rw [if_pos hn] at h
            exact key _ _ _ _ h
          · rw [if_neg hn] at h
            exact ih _ _ _ _ _ h
    · rw [if_neg hlen, subList_of_nonneg count h0] at h
      exact key _ _ _ _ h

/-- Claim C5, amended: with limit 0 every record set that `queryList` returns
is empty, and when the first invocation returns an error, or a non-nil response
together with at least one record or with next page 0, `queryList` returns
after exactly that one invocation, handing back the error of that invocation. -/
theorem queryList_limit_zero {σ : Type} (api : PageFetch σ) (s : σ) (fuel : Nat) :
    (∀ recs e, (queryList api s 0 fuel).2 = Outcome.returned recs e → recs = []) ∧
    (1 ≤ fuel →
      ((api s 1).1.err ≠ none ∨
        ∃ r, (api s 1).1.resp = some r ∧ ((api s 1).1.repo ≠ [] ∨ r.NextPage = 0)) →
      queryList api s 0 fuel =
        ([{ page := 1, result := (api s 1).1 }], Outcome.returned [] (api s 1).1.err)) := by
  constructor
  · intro recs e h
    have := queryListLoop_length_le api 0 (le_refl 0) fuel s 1 [] recs e h
    exact List.length_eq_zero.mp (by simpa using this)
  · intro hfuel hstop
    cases fuel with
    | zero => omega
    | succ fuel =>
      unfold queryList queryListLoop
      simp only [append_if_nonempty]
      simp only [List.length_nil, Nat.cast_zero, le_refl, if_true,
        List.nil_append, subList_of_nonneg 0 (le_refl 0), Int.toNat_zero, List.take_zero]
      cases herr : (api s 1).1.err with
      | some e => rfl
      | none =>
        rw [herr] at hstop
        rcases hstop with h | ⟨r, hr, h⟩
        · exact absurd rfl h
        · simp only [hr]
          by_cases hn : r.NextPage = 0
          · rw [if_pos hn]
          · rw [if_neg hn]
            have hne : (api s 1).1.repo ≠ [] := by
              rcases h with h | h
              · exact h
              · exact absurd h hn
            have hlen : ¬ (((api s 1).1.repo.length : Int) ≤ 0) := by
              have := List.length_pos.mpr hne
              omega
            cases fuel with
            | zero =>
              unfold queryListLoop
              rw [if_neg hlen, subList_of_nonneg 0 (le_refl 0)]
              rfl
            | succ fuel =>
              unfold queryListLoop
              rw [if_neg hlen, subList_of_nonneg 0 (le_refl 0)]
              rfl

theorem queryListLoop_error {σ : Type} (api : PageFetch σ) (count : Int) (h0 : 0 ≤ count) :
    ∀ (fuel : Nat) (s : σ) (page : Int) (acc : List Repository) (k : Nat) (c : Call)
      (e : GoError),
      (queryListLoop api count fuel s page acc).1[k]? = some c → c.result.err = some e →
      (queryListLoop api count fuel s page acc).1.length = k + 1 ∧
      (queryListLoop api count fuel s page acc).2 =
        Outcome.returned
          ((acc ++ fetched (queryListLoop api count fuel s page acc).1).take count.toNat)
          (some e) := by
  intro fuel
  induction fuel with
  | zero =>
    intro s page acc k c e hk _
    unfold queryListLoop at hk
    split_ifs at hk <;> simp at hk
  | succ fuel ih =>
    intro s page acc k c e hk he
    unfold queryListLoop at hk ⊢
    split_ifs at hk ⊢ with hlen
    · simp only [append_if_nonempty, subList_of_nonneg count h0] at hk ⊢
      cases herr : (api s page).1.err with
      | some e1 =>
        simp only [herr] at hk ⊢
        cases k with
        | zero =>
          simp only [List.getElem?_cons_zero, Option.some.injEq] at hk
          subst hk
          simp only at he
          rw [herr] at he
          cases he
          simp [fetched]
        | succ k => simp at hk
      | none =>
        simp only [herr] at hk ⊢
        cases hresp : (api s page).1.resp with
        | none =>
          simp only [hresp] at hk ⊢
          cases k with
          | zero =>
            simp only [List.getElem?_cons_zero, Option.some.injEq] at hk
            subst hk
            simp only at he
            rw [herr] at he
            cases he
          | succ k => simp at hk
        | some r =>
          simp only [hresp] at hk ⊢
          split_ifs at hk ⊢ with hn
          · cases k with
            | zero =>
              simp only [List.getElem?_cons_zero, Option.some.injEq] at hk
              subst hk
              simp only at he
              rw [herr] at he
              cases he
            | succ k => simp at hk
          · cases k with
            | zero =>
              simp only [List.getElem?_cons_zero, Option.some.injEq] at hk
              subst hk
              simp only at he
              rw [herr] at he
              cases he
            | succ k =>
              simp only [List.getElem?_cons_succ] at hk
              obtain ⟨h1, h2⟩ := ih _ _ _ k c e hk he
              refine ⟨by simp [h1], ?_⟩
              rw [h2]
              simp [fetched]
    · simp at hk

/-- Claim C6: for every limit >= 0 and every page source, if some invocation
(the one at position `k`, counted from 0) returns an error, then it is the
last invocation and `queryList` returns that error together with the records
of all invocations made, the failing one included, in fetch order and cut to
at most `limit` records. -/
theorem queryList_stops_at_first_error {σ : Type} (api : PageFetch σ) (s : σ) (limit : Int)
    (fuel k : Nat) (c : Call) (e : GoError) (hlimit : 0 ≤ limit)
    (hk : (queryList api s limit fuel).1[k]? = some c) (herr : c.result.err = some e) :
    (queryList api s limit fuel).1.length = k + 1 ∧
    (queryList api s limit fuel).2 =
      Outcome.returned ((fetched (queryList api s limit fuel).1).take limit.toNat) (some e) := by
  have := queryListLoop_error api limit hlimit fuel s 1 [] k c e hk herr
  simpa [queryList] using this


/-- Witness for claim C4: limit 2 on a chain of two pages holding three records. -/
theorem queryList_returns_first_min_limit_total_witness :
    (queryList twoPageSource () 2 2).2 =
      Outcome.returned
        (([[sampleRepo "a" "Go", sampleRepo "b" "C"], [sampleRepo "c" "Go"]].flatten).take
          (min (2 : Int).toNat
            ([[sampleRepo "a" "Go", sampleRepo "b" "C"], [sampleRepo "c" "Go"]].flatten).length))
        none :=
  queryList_returns_first_min_limit_total twoPageSource () 2
    [[sampleRepo "a" "Go", sampleRepo "b" "C"], [sampleRepo "c" "Go"]] 2 (by decide)
    (ServesChain.next () 1 2 _ _ rfl (by decide) (ServesChain.last _ 2 _ rfl)) (by decide)

/-- Counterexample to claim C5: with limit 0, an empty first page that names a
next page makes `queryList` invoke the fetch function twice. -/
theorem queryList_limit_zero_two_invocations :
    (queryList emptyFirstPageSource () 0 5).2 = Outcome.returned [] none ∧
    (queryList emptyFirstPageSource () 0 5).1.map (fun c => c.page) = [1, 2] ∧
    ¬ (queryList emptyFirstPageSource () 0 5).1.length ≤ 1 := by
  decide

/-- Witness for the amended claim C5: a non-empty first page. -/
theorem queryList_limit_zero_witness :
    queryList twoPageSource () 0 3 =
      ([{ page := 1, result := (twoPageSource () 1).1 }], Outcome.returned [] none) :=
  (queryList_limit_zero twoPageSource () 3).2 (by decide)
    (Or.inr ⟨{ NextPage := 2 }, rfl, Or.inl (by decide)⟩)

/-- Witness for claim C6: the second invocation fails. -/
theorem queryList_stops_at_first_error_witness :
    (queryList failingSource () 5 9).1.length = 1 + 1 ∧
    (queryList failingSource () 5 9).2 =
      Outcome.returned ((fetched (queryList failingSource () 5 9).1).take (5 : Int).toNat)
        (some "rate limit") :=
  queryList_stops_at_first_error failingSource () 5 9 1
    { page := 2, result := (failingSource () 2).1 } "rate limit" (by decide) (by decide) rfl

/-! ## The Renderer -/

theorem foldl_append_eq_join (l : List String) (acc : String) :
    l.foldl (fun r s => r ++ s) acc = acc ++ String.join l := by
  induction l generalizing acc with
  | nil => simp [String.join]
  | cons x l ih =>
    simp only [List.foldl_cons, String.join]
    rw [ih, ih ("" ++ x), String.empty_append, String.append_assoc]

theorem join_cons (x : String) (l : List String) : String.join (x :: l) = x ++ String.join l := by
  have h : String.join (x :: l) = l.foldl (fun r s => r ++ s) ("" ++ x) := rfl
  rw [h, foldl_append_eq_join, String.empty_append]

theorem foldl_write_eq_join {α : Type} (f : α → String) (l : List α) (sb : String) :
    l.foldl (fun sb x => sb ++ f x) sb = sb ++ String.join (l.map f) := by
  induction l generalizing sb with
  | nil => simp [String.join]
  | cons x l ih =>
    rw [List.foldl_cons, ih, List.map_cons, join_cons, String.append_assoc]

theorem foldl_writeRecordLine (l : List Repository) (sb : String) :
    l.foldl writeRecordLine sb = sb ++ l.foldl writeRecordLine "" := by
  induction l generalizing sb with
  | nil => simp
  | cons r l ih =>
    rw [List.foldl_cons, ih, List.foldl_cons, ih (writeRecordLine "" r)]
    simp only [writeRecordLine, String.append_assoc, String.empty_append]

theorem foldl_writeSection (l : List group) (sb : String) :
    l.foldl writeSection sb = sb ++ l.foldl writeSection "" := by
  induction l generalizing sb with
  | nil => simp
  | cons g l ih =>
    rw [List.foldl_cons, ih, List.foldl_cons, ih (writeSection "" g)]
    simp only [writeSection, String.append_assoc, String.empty_append]
    rw [foldl_writeRecordLine, foldl_writeRecordLine g.repo ("## " ++ _)]
    simp only [String.append_assoc]

/-- Claim C7: for every sequence of groups the text of `buildCollectContent`
starts with one index line per group, in input order, each of the form
"- [name](#anchor) (count)" and a newline, where the anchor is the lower-cased
name with every space replaced by a hyphen and the count is the decimal number
of records of the group; one empty line follows the index, and then come the
sections. -/
theorem buildCollectContent_index (lowerRune : Char → Char) (groups : List group) :
    buildCollectContent lowerRune groups =
      String.join (groups.map (fun g =>
        "- [" ++ g.name ++ "](#" ++
          replaceRune (toLower lowerRune g.name) (Char.ofNat 32) (Char.ofNat 45) ++
          ") (" ++ Nat.repr g.repo.length ++ ")" ++ "\n")) ++
      "\n" ++ groups.foldl writeSection "" := by
  have h1 : ∀ sb : String, groups.foldl (writeIndexLine lowerRune) sb =
      sb ++ String.join (groups.map (fun g =>
        "- [" ++ g.name ++ "](#" ++
          replaceRune (toLower lowerRune g.name) (Char.ofNat 32) (Char.ofNat 45) ++
          ") (" ++ Nat.repr g.repo.length ++ ")" ++ "\n")) := by
    intro sb
    rw [← foldl_write_eq_join]
    congr 1
    funext sb g
    simp only [writeIndexLine, formatDecimal, String.append_assoc]
    rfl
  have h2 : ∀ sb : String, groups.foldl writeSection sb = sb ++ groups.foldl writeSection "" :=
    foldl_writeSection groups
  unfold buildCollectContent
  simp only
  rw [h2, h1, String.empty_append]

/-- Claim C8: for every sequence of groups the text after the index and its
separator line consists, for each group in input order, of the heading line
"## name", an empty line, one line per record in the group's own order of the
form "- [fullName](url) pushed_at:YYYY-MM star:S.Sk fork:F.Fk description"
(the year-month text being empty for an absent timestamp), and an empty line. -/
theorem buildCollectContent_sections (lowerRune : Char → Char) (groups : List group) :
    buildCollectContent lowerRune groups =
      groups.foldl (writeIndexLine lowerRune) "" ++ "\n" ++
      String.join (groups.map (fun g =>
        "## " ++ g.name ++ "\n" ++ "\n" ++
        String.join (g.repo.map (fun r =>
          "- [" ++ r.GetFullName ++ "](" ++ r.GetHTMLURL ++ ") " ++
          "pushed_at:" ++ (match r.PushedAt with
            | none => ""
            | some t => appendInt t.year 4 ++ "-" ++ appendInt (t.month : Int) 2) ++
          " star:" ++
          formatF1 (Float64.div (Float64.ofInt r.GetStargazersCount) (Float64.ofInt 1000)) ++
          "k fork:" ++
          formatF1 (Float64.div (Float64.ofInt r.GetForksCount) (Float64.ofInt 1000)) ++
          "k" ++ " " ++
          replaceRune r.GetDescription (Char.ofNat 10) (Char.ofNat 32) ++ "\n")) ++
        "\n")) := by
  have h1 : ∀ (l : List Repository) (sb : String), l.foldl writeRecordLine sb =
      sb ++ String.join (l.map (fun r =>
          "- [" ++ r.GetFullName ++ "](" ++ r.GetHTMLURL ++ ") " ++
          "pushed_at:" ++ (match r.PushedAt with
            | none => ""
            | some t => appendInt t.year 4 ++ "-" ++ appendInt (t.month : Int) 2) ++
          " star:" ++
          formatF1 (Float64.div (Float64.ofInt r.GetStargazersCount) (Float64.ofInt 1000)) ++
          "k fork:" ++
          formatF1 (Float64.div (Float64.ofInt r.GetForksCount) (Float64.ofInt 1000)) ++
          "k" ++ " " ++
          replaceRune r.GetDescription (Char.ofNat 10) (Char.ofNat 32) ++ "\n")) := by
    intro l sb
    rw [← foldl_write_eq_join]
    congr 1
    funext sb r
    simp only [writeRecordLine, extend, Timestamp.Format, String.append_assoc]
  have h2 : ∀ sb : String, groups.foldl writeSection sb =
      sb ++ String.join (groups.map (fun g =>
        "## " ++ g.name ++ "\n" ++ "\n" ++
        String.join (g.repo.map (fun r =>
          "- [" ++ r.GetFullName ++ "](" ++ r.GetHTMLURL ++ ") " ++
          "pushed_at:" ++ (match r.PushedAt with
            | none => ""
            | some t => appendInt t.year 4 ++ "-" ++ appendInt (t.month : Int) 2) ++
          " star:" ++
          formatF1 (Float64.div (Float64.ofInt r.GetStargazersCount) (Float64.ofInt 1000)) ++
          "k fork:" ++
          formatF1 (Float64.div (Float64.ofInt r.GetForksCount) (Float64.ofInt 1000)) ++
          "k" ++ " " ++
          replaceRune r.GetDescription (Char.ofNat 10) (Char.ofNat 32) ++ "\n")) ++
        "\n")) := by
    intro sb
    rw [← foldl_write_eq_join]
    congr 1
    funext sb g
    simp only [writeSection]
    rw [h1]
    simp only [String.append_assoc]
    rfl
  unfold buildCollectContent
  simp only
  rw [h2]

/-! ## The year-month text -/

/-- A number below `b ^ k` is written with at most `k` digits. -/
theorem toDigitsCore_length_le (b : Nat) (hb : 1 < b) : ∀ (fuel k n : Nat) (ds : List Char),
    n < b ^ k → 0 < k → k ≤ fuel → (Nat.toDigitsCore b fuel n ds).length ≤ ds.length + k
  | 0, k, n, ds, _, hk, hf => by omega
  | fuel + 1, k, n, ds, hn, hk, hf => by
    unfold Nat.toDigitsCore
    simp only
    split_ifs with h0
    · simp only [List.length_cons]; omega
    · cases k with
      | zero => omega
      | succ k =>
        have hdiv : n / b < b ^ k := by
          rw [Nat.div_lt_iff_lt_mul (by omega)]
          rw [pow_succ] at hn
          exact hn
        have hk0 : 0 < k := by
          rcases Nat.eq_zero_or_pos k with h | h
          · subst h
            simp only [pow_zero, Nat.lt_one_iff] at hdiv
            exact absurd hdiv h0
          · exact h
        have := toDigitsCore_length_le b hb fuel k (n / b) (Nat.digitChar (n % b) :: ds)
          hdiv hk0 (by omega)
        simp only [List.length_cons] at this
        omega

theorem repr_length_le (n k : Nat) (hn : n < 10 ^ k) (hk : 0 < k) :
    (Nat.repr n).length ≤ k := by
  have key : ∀ j, n < 10 ^ j → 0 < j → j ≤ n + 1 → (Nat.repr n).length ≤ j := by
    intro j h1 h2 h3
    have := toDigitsCore_length_le 10 (by norm_num) (n + 1) j n [] h1 h2 h3
    have e : (Nat.repr n).length = (Nat.toDigitsCore 10 (n + 1) n []).length := rfl
    rw [e]
    simpa using this
  by_cases h : k ≤ n + 1
  · exact key k hn hk h
  · have h2 : n < 10 ^ (n + 1) :=
      Nat.lt_of_lt_of_le (Nat.lt_succ_self n) (Nat.le_of_lt (Nat.lt_pow_self (by norm_num) _))
    have := key (n + 1) h2 (Nat.succ_pos n) (Nat.le_refl _)
    omega

/-- For a year from 0 to 9999 and a month below 100 the text of `Format` has
seven characters: four for the year, the hyphen, two for the month. -/
theorem Timestamp.Format_length (t : Timestamp) (h0 : 0 ≤ t.year) (h1 : t.year ≤ 9999)
    (hm : t.month ≤ 99) : t.Format.length = 7 := by
  have hy : (Nat.repr t.year.natAbs).length ≤ 4 :=
    repr_length_le _ 4 (by omega) (by norm_num)
  have hmo : (Nat.repr (t.month : Int).natAbs).length ≤ 2 :=
    repr_length_le _ 2 (by simp only [Int.natAbs_ofNat]; omega) (by norm_num)
  have hneg : ¬ t.year < 0 := by omega
  have hneg2 : ¬ ((t.month : Int) < 0) := by omega
  unfold Timestamp.Format appendInt
  simp only [hneg, hneg2, if_false, String.length_append, String.empty_append]
  have e : ∀ k, (String.mk (List.replicate k (Char.ofNat 48))).length = k := by
    intro k; simp [String.length]
  rw [e, e]
  have e1 : "-".length = 1 := rfl
  rw [e1]
  omega

/-! ## Star and fork numbers -/

/-- The result of `roundHalfEven a b` is within half a unit of `a / b`. -/
theorem roundHalfEven_spec (a b : Nat) (hb : 0 < b) :
    2 * (roundHalfEven a b * b) ≤ 2 * a + b ∧ 2 * a ≤ 2 * (roundHalfEven a b * b) + b := by
  have h1 := Nat.div_add_mod a b
  have h2 := Nat.mod_lt a hb
  have h3 : (a / b + 1) * b = b * (a / b) + b := by ring
  have h4 : a / b * b = b * (a / b) := by ring
  unfold roundHalfEven
  simp only
  split_ifs <;> first | (rw [h3]; omega) | (rw [h4]; omega)

theorem roundHalfEven_mul (q d : Nat) (hd : 0 < d) : roundHalfEven (q * d) d = q := by
  unfold roundHalfEven
  simp only [Nat.mul_mod_left, Nat.mul_zero, hd, if_true, Nat.mul_div_left q hd]

theorem log2FloorAux_spec : ∀ (fuel n : Nat), n ≤ fuel → n ≠ 0 →
    2 ^ log2FloorAux fuel n ≤ n ∧ n < 2 ^ (log2FloorAux fuel n + 1)
  | 0, n, h, hn => by omega
  | fuel + 1, n, h, hn => by
    unfold log2FloorAux
    split_ifs with h2
    · have : n = 1 := by omega
      subst this
      simp
    · have ih := log2FloorAux_spec fuel (n / 2) (by omega) (by omega)
      rw [pow_succ, pow_succ _ (log2FloorAux fuel (n / 2) + 1)]
      omega

theorem log2Floor_le (n : Nat) (hn : n ≠ 0) : 2 ^ log2Floor n ≤ n :=
  (log2FloorAux_spec n n (Nat.le_refl n) hn).1

theorem log2Floor_lt (n k : Nat) (h : n < 2 ^ k) (hk : 0 < k) : log2Floor n < k := by
  by_cases hn : n = 0
  · subst hn
    have : log2Floor 0 = 0 := rfl
    omega
  · have h1 := log2Floor_le n hn
    have h2 : 2 ^ log2Floor n < 2 ^ k := Nat.lt_of_le_of_lt h1 h
    exact (Nat.pow_lt_pow_iff_right (by norm_num)).mp h2

theorem le_log2Floor (n k : Nat) (h : 2 ^ k ≤ n) : k ≤ log2Floor n := by
  have hn : n ≠ 0 := by
    have := Nat.pow_pos (n := k) (show 0 < 2 by omega)
    omega
  have h2 := (log2FloorAux_spec n n (Nat.le_refl n) hn).2
  have h3 : 2 ^ k < 2 ^ (log2Floor n + 1) := Nat.lt_of_le_of_lt h h2
  have := (Nat.pow_lt_pow_iff_right (by norm_num)).mp h3
  omega

set_option exponentiation.threshold 2048

theorem float64Unit_pos : 0 < float64Unit := Nat.two_pow_pos 1074

/-- Integers below `2^53` are converted exactly. -/
theorem roundToFloat64_exact (n : Nat) (hn : n < 2 ^ 53) :
    roundToFloat64 (n * float64Unit) 1 = n * float64Unit := by
  unfold roundToFloat64
  simp only [Nat.div_one, Nat.one_mul]
  have he : log2Floor (n * float64Unit) - 52 ≤ 1074 := by
    have : n * float64Unit < 2 ^ 1127 := by
      have h : (2:Nat) ^ 1127 = 2 ^ 53 * float64Unit := by
        rw [float64Unit, ← pow_add]
      rw [h]
      exact Nat.mul_lt_mul_of_pos_right hn float64Unit_pos
    have := log2Floor_lt _ _ this (by omega)
    omega
  generalize log2Floor (n * float64Unit) - 52 = e at he
  have hU : float64Unit = 2 ^ (1074 - e) * 2 ^ e := by
    rw [float64Unit, ← pow_add]
    congr 1
    omega
  have h1 : n * float64Unit = (n * 2 ^ (1074 - e)) * 2 ^ e := by
    rw [hU]; ring
  rw [h1, roundHalfEven_mul _ _ (Nat.pow_pos (by omega))]

theorem ofInt_exact (x : Int) (h0 : 0 ≤ x) (h : x < 2 ^ 53) :
    Float64.ofInt x = { neg := false, num := x.toNat * float64Unit } := by
  unfold Float64.ofInt
  have h1 : x.natAbs = x.toNat := by omega
  have h2 : x.toNat < 2 ^ 53 := by
    have : ((x.toNat : Nat) : Int) < ((2 ^ 53 : Nat) : Int) := by
      rw [Int.toNat_of_nonneg h0]; exact_mod_cast h
    exact_mod_cast this
  rw [h1, roundToFloat64_exact _ h2]
  simp only [Float64.mk.injEq, decide_eq_false_iff_not, not_lt, and_true]
  exact h0

/-- The binary64 quotient of an integer below `2^53` by 1000 lies within
one thousandth of the exact quotient. -/
theorem quotient_close (n : Nat) (hn : n < 2 ^ 53) :
    1000 * roundToFloat64 (n * float64Unit * float64Unit) (1000 * float64Unit) <
        n * float64Unit + float64Unit ∧
      n * float64Unit <
        1000 * roundToFloat64 (n * float64Unit * float64Unit) (1000 * float64Unit) +
          float64Unit := by
  have hU := float64Unit_pos
  have hm : n * float64Unit * float64Unit / (1000 * float64Unit) = n * float64Unit / 1000 :=
    Nat.mul_div_mul_right _ _ hU
  unfold roundToFloat64
  simp only [hm]
  by_cases h0 : n = 0
  · subst h0
    have : log2Floor (0 * float64Unit / 1000) = 0 := by
      rw [Nat.zero_mul, Nat.zero_div]; rfl
    simp [this, roundHalfEven, hU]
  · have hbig : 2 ^ 52 ≤ n * float64Unit / 1000 := by
      have h1 : 2 ^ 52 * 1000 ≤ float64Unit := by
        have e : float64Unit = 2 ^ 52 * 2 ^ 1022 := by
          rw [float64Unit, ← pow_add]
        have h10 : 1000 ≤ 2 ^ 10 := by norm_num
        have hp : 2 ^ 10 ≤ 2 ^ 1022 := Nat.pow_le_pow_right (by omega) (by omega)
        rw [e]
        exact Nat.mul_le_mul_left _ (le_trans h10 hp)
      have h2 : float64Unit ≤ n * float64Unit := Nat.le_mul_of_pos_left _ (by omega)
      exact (Nat.le_div_iff_mul_le (by norm_num)).mpr (le_trans h1 h2)
    have hL := le_log2Floor _ _ hbig
    have hle := log2Floor_le (n * float64Unit / 1000) (by
      have := Nat.pow_pos (n := 52) (show 0 < 2 by omega)
      intro hz
      rw [hz] at hbig
      omega)
    have hsplit : 2 ^ log2Floor (n * float64Unit / 1000) =
        2 ^ (log2Floor (n * float64Unit / 1000) - 52) * 2 ^ 52 := by
      rw [← pow_add]; congr 1; omega
    generalize log2Floor (n * float64Unit / 1000) - 52 = e at hsplit
    rw [hsplit] at hle
    have hdiv : 1000 * (n * float64Unit / 1000) ≤ n * float64Unit := Nat.mul_div_le _ _
    have hnU : n * float64Unit < 2 ^ 53 * float64Unit :=
      Nat.mul_lt_mul_of_pos_right hn hU
    -- hence `1000 * 2^e < 2 * U`
    have hE : 1000 * 2 ^ e < 2 * float64Unit := by
      have h3 : 1000 * (2 ^ e * 2 ^ 52) < 2 ^ 53 * float64Unit :=
        lt_of_le_of_lt (le_trans (Nat.mul_le_mul_left 1000 hle) hdiv) hnU
      have h4 : 1000 * (2 ^ e * 2 ^ 52) = (1000 * 2 ^ e) * 2 ^ 52 := by ring
      have h5 : 2 ^ 53 * float64Unit = (2 * float64Unit) * 2 ^ 52 := by ring
      rw [h4, h5] at h3
      exact Nat.lt_of_mul_lt_mul_right h3
    have hc : 0 < 1000 * float64Unit * 2 ^ e :=
      Nat.mul_pos (Nat.mul_pos (by norm_num) hU) (Nat.pow_pos (by omega))
    obtain ⟨s1, s2⟩ := roundHalfEven_spec (n * float64Unit * float64Unit)
      (1000 * float64Unit * 2 ^ e) hc
    generalize roundHalfEven (n * float64Unit * float64Unit) (1000 * float64Unit * 2 ^ e) = q
      at s1 s2
    have e1 : 2 * (q * (1000 * float64Unit * 2 ^ e)) = (2000 * (q * 2 ^ e)) * float64Unit := by
      ring
    have e2 : 2 * (n * float64Unit * float64Unit) + 1000 * float64Unit * 2 ^ e =
        (2 * (n * float64Unit) + 1000 * 2 ^ e) * float64Unit := by ring
    have e3 : 2 * (q * (1000 * float64Unit * 2 ^ e)) + 1000 * float64Unit * 2 ^ e =
        (2000 * (q * 2 ^ e) + 1000 * 2 ^ e) * float64Unit := by ring
    have e4 : 2 * (n * float64Unit * float64Unit) = (2 * (n * float64Unit)) * float64Unit := by
      ring
    rw [e1, e2] at s1
    rw [e4, e3] at s2
    have t1 := Nat.le_of_mul_le_mul_right s1 hU
    have t2 := Nat.le_of_mul_le_mul_right s2 hU
    constructor <;> omega

theorem formatF1_thousands (x : Int) (h0 : 0 ≤ x) :
    formatF1 (Float64.div (Float64.ofInt x) (Float64.ofInt 1000)) =
      Nat.repr (shownTenths x / 10) ++ "." ++ Nat.repr (shownTenths x % 10) := by
  have h1 : (Float64.div (Float64.ofInt x) (Float64.ofInt 1000)).neg = false := by
    have : ¬ x < 0 := by omega
    simp [Float64.div, Float64.ofInt, this]
  unfold formatF1 shownTenths
  simp only [h1, Bool.false_eq_true, if_false, String.empty_append]

theorem repr_digit_length (t : Nat) : (Nat.repr (t % 10)).length = 1 := by
  have h : t % 10 < 10 := Nat.mod_lt _ (by omega)
  generalize t % 10 = d at h
  interval_cases d <;> rfl

theorem shownTenths_nearest (n : Nat) (hn : n < 2 ^ 53) :
    100 * shownTenths (n : Int) ≤ n + 50 ∧ n ≤ 100 * shownTenths (n : Int) + 50 := by
  have hU := float64Unit_pos
  have hd : (Float64.div (Float64.ofInt (n : Int)) (Float64.ofInt 1000)).num =
      roundToFloat64 (n * float64Unit * float64Unit) (1000 * float64Unit) := by
    rw [ofInt_exact (n : Int) (by omega) (by exact_mod_cast hn),
      ofInt_exact 1000 (by norm_num) (by norm_num)]
    rfl
  obtain ⟨q1, q2⟩ := quotient_close n hn
  unfold shownTenths
  rw [hd]
  generalize roundToFloat64 (n * float64Unit * float64Unit) (1000 * float64Unit) = d at q1 q2 ⊢
  obtain ⟨s1, s2⟩ := roundHalfEven_spec (d * 10) float64Unit hU
  generalize roundHalfEven (d * 10) float64Unit = t at s1 s2 ⊢
  constructor
  · by_contra hc
    have h1 : (n + 51) * float64Unit ≤ (100 * t) * float64Unit :=
      Nat.mul_le_mul_right _ (by omega)
    have e1 : (n + 51) * float64Unit = n * float64Unit + 51 * float64Unit := by ring
    have e2 : (100 * t) * float64Unit = 100 * (t * float64Unit) := by ring
    rw [e1, e2] at h1
    omega
  · by_contra hc
    have h1 : (100 * t + 51) * float64Unit ≤ n * float64Unit :=
      Nat.mul_le_mul_right _ (by omega)
    have e1 : (100 * t + 51) * float64Unit = 100 * (t * float64Unit) + 51 * float64Unit := by
      ring
    rw [e1] at h1
    omega

set_option maxRecDepth 100000 in
theorem shownTenths_fifty : shownTenths 50 = 1 := by decide

/-- Claim C9: for every record with non-negative star and fork counts,
`extend` writes each count as a number with exactly one digit after the decimal
point followed by "k"; the number is the count divided by 1000 (for counts
below `2^53`, which binary64 holds exactly, it is within half a tenth of the
quotient); 1500 renders as "1.5", 50 as "0.1" and 0 as "0.0", for stars and for
forks alike. -/
theorem extend_one_decimal (repo : Repository)
    (hs : 0 ≤ repo.GetStargazersCount) (hf : 0 ≤ repo.GetForksCount) :
    ∃ s f : Nat,
      extend repo =
        "pushed_at:" ++ (match repo.PushedAt with
          | none => ""
          | some t => t.Format) ++
        " star:" ++ Nat.repr (s / 10) ++ "." ++ Nat.repr (s % 10) ++
        "k fork:" ++ Nat.repr (f / 10) ++ "." ++ Nat.repr (f % 10) ++ "k" ∧
      (Nat.repr (s % 10)).length = 1 ∧ (Nat.repr (f % 10)).length = 1 ∧
      (repo.GetStargazersCount < 2 ^ 53 →
        100 * (s : Int) ≤ repo.GetStargazersCount + 50 ∧
        repo.GetStargazersCount ≤ 100 * (s : Int) + 50) ∧
      (repo.GetForksCount < 2 ^ 53 →
        100 * (f : Int) ≤ repo.GetForksCount + 50 ∧
        repo.GetForksCount ≤ 100 * (f : Int) + 50) ∧
      (repo.GetStargazersCount = 1500 → s = 15) ∧ (repo.GetStargazersCount = 50 → s = 1) ∧
      (repo.GetStargazersCount = 0 → s = 0) ∧
      (repo.GetForksCount = 1500 → f = 15) ∧ (repo.GetForksCount = 50 → f = 1) ∧
      (repo.GetForksCount = 0 → f = 0) := by
  have near : ∀ x : Int, 0 ≤ x → x < 2 ^ 53 →
      100 * (shownTenths x : Int) ≤ x + 50 ∧ x ≤ 100 * (shownTenths x : Int) + 50 := by
    intro x h0 h
    have hx : ((x.toNat : Nat) : Int) = x := Int.toNat_of_nonneg h0
    have hlt : x.toNat < 2 ^ 53 := by
      have : ((x.toNat : Nat) : Int) < ((2 ^ 53 : Nat) : Int) := by
        rw [hx]; exact_mod_cast h
      exact_mod_cast this
    have := shownTenths_nearest x.toNat hlt
    rw [hx] at this
    omega
  refine ⟨shownTenths repo.GetStargazersCount, shownTenths repo.GetForksCount, ?_,
    repr_digit_length _, repr_digit_length _, near _ hs, near _ hf, ?_, ?_, ?_, ?_, ?_, ?_⟩
  · unfold extend
    simp only [formatF1_thousands _ hs, formatF1_thousands _ hf, String.append_assoc]
  · intro h; rw [h]; have := near 1500 (by norm_num) (by norm_num); omega
  · intro h; rw [h]; exact shownTenths_fifty
  · intro h; rw [h]; have := near 0 (by norm_num) (by norm_num); omega
  · intro h; rw [h]; have := near 1500 (by norm_num) (by norm_num); omega
  · intro h; rw [h]; exact shownTenths_fifty
  · intro h; rw [h]; have := near 0 (by norm_num) (by norm_num); omega

/-- Witness for claim C9: 1500 stars and 50 forks render as "star:1.5k" and
"fork:0.1k". -/
theorem extend_one_decimal_witness :
    extend (countedRepo 1500 50) = "pushed_at:2020-07 star:1.5k fork:0.1k" := by
  obtain ⟨s, f, h, -, -, -, -, h1, -, -, -, h2, -⟩ :=
    extend_one_decimal (countedRepo 1500 50) (by decide) (by decide)
  rw [h, h1 rfl, h2 rfl]
  decide

set_option maxRecDepth 100000 in
/-- Counterexample to claim C10: 999 stars render as "1.0k", the rounded
value, and not as the truncated "0.9k". -/
theorem extend_rounds_999_up :
    extend (countedRepo 999 0) = "pushed_at:2020-07 star:1.0k fork:0.0k" ∧
    extend (countedRepo 999 0) ≠ "pushed_at:2020-07 star:0.9k fork:0.0k" := by
  decide

/-- Claim C10, amended: the star/fork number written by `extend` is the count
divided by 1000 rounded to the nearest one-decimal number: for every count
`n` with `0 <= n < 2^53` the rendered number of tenths is `floor((n+50)/100)`
when `n mod 100` is not 50, and one of `floor(n/100)`, `floor(n/100)+1` when it
is 50. -/
theorem extend_rounds_to_nearest_tenth (repo : Repository) (n m : Nat)
    (hs : repo.GetStargazersCount = (n : Int)) (hf : repo.GetForksCount = (m : Int))
    (hn : n < 2 ^ 53) (hm : m < 2 ^ 53) :
    ∃ s f : Nat,
      extend repo =
        "pushed_at:" ++ (match repo.PushedAt with
          | none => ""
          | some t => t.Format) ++
        " star:" ++ Nat.repr (s / 10) ++ "." ++ Nat.repr (s % 10) ++
        "k fork:" ++ Nat.repr (f / 10) ++ "." ++ Nat.repr (f % 10) ++ "k" ∧
      (n % 100 ≠ 50 → s = (n + 50) / 100) ∧
      (n % 100 = 50 → s = n / 100 ∨ s = n / 100 + 1) ∧
      (m % 100 ≠ 50 → f = (m + 50) / 100) ∧
      (m % 100 = 50 → f = m / 100 ∨ f = m / 100 + 1) := by
  have h1 := shownTenths_nearest n hn
  have h2 := shownTenths_nearest m hm
  refine ⟨shownTenths (n : Int), shownTenths (m : Int), ?_, ?_, ?_, ?_, ?_⟩
  · unfold extend
    simp only [hs, hf, formatF1_thousands _ (Int.natCast_nonneg _), String.append_assoc]
  · intro h; omega
  · intro h; omega
  · intro h; omega
  · intro h; omega

/-- Witness for the amended claim C10: 12345 stars render as "12.3k" and 999
forks as "1.0k". -/
theorem extend_rounds_to_nearest_tenth_witness :
    extend (countedRepo 12345 999) = "pushed_at:2020-07 star:12.3k fork:1.0k" := by
  obtain ⟨s, f, h, h1, -, h2, -⟩ :=
    extend_rounds_to_nearest_tenth (countedRepo 12345 999) 12345 999 rfl rfl
      (by norm_num) (by norm_num)
  rw [h, h1 (by decide), h2 (by decide)]
  decide

/-! ## Bounds of the grouping loop -/

/-- The append into `groups[i]` fails exactly when `i` is out of range. -/
theorem appendRepoAt_eq_none_iff (r : Repository) : ∀ (gs : List group) (i : Nat),
    appendRepoAt gs i r = none ↔ gs.length ≤ i
  | [], i => by simp [appendRepoAt]
  | g :: gs, 0 => by simp [appendRepoAt]
  | g :: gs, i + 1 => by
    simp only [appendRepoAt, Option.map_eq_none', List.length_cons, Nat.add_le_add_iff_right]
    exact appendRepoAt_eq_none_iff r gs i

theorem groupKey_ne_empty (r : Repository) : groupKey r ≠ "" := by
  unfold groupKey
  split_ifs with h
  · decide
  · exact h

theorem sort_nil (S : SliceSorter) {α : Type} (less : α → α → Bool) : S.sort less [] = [] :=
  List.Perm.eq_nil (S.perm less [])

/-- Claim C19: for every list of records `collectRepository` returns (the
index `indexMap[name]` is in range at every step, so the grouping loop never
fails), every returned group holds at least one record, no returned group is
the placeholder of position 0 (nor has its empty name), and the empty input
gives the empty list of groups. -/
theorem collectRepository_groups_nonempty (S : SliceSorter) (lowerRune : Char → Char)
    (repos : List Repository) :
    (∃ gs : List group, collectRepository S lowerRune repos = some gs ∧
      (∀ g ∈ gs, 1 ≤ g.repo.length) ∧
      (∀ g ∈ gs, g ≠ { name := "", repo := [] } ∧ g.name ≠ "")) ∧
    collectLoop initialState (S.sort (lessByLowerName lowerRune) repos) ≠ none ∧
    collectRepository S lowerRune [] = some [] := by
  refine ⟨?_, ?_, ?_⟩
  · obtain ⟨g, hres, -, hkeys, -⟩ := collectRepository_unsorted S lowerRune repos
    refine ⟨_, hres, ?_, ?_⟩
    · intro x hx
      have := (hkeys x ((S.perm lessByGroupName g).mem_iff.mp hx)).1
      exact List.length_pos.mpr this
    · intro x hx
      obtain ⟨h1, h2, -⟩ := hkeys x ((S.perm lessByGroupName g).mem_iff.mp hx)
      have hname : x.name ≠ "" := by
        cases hr : x.repo with
        | nil => exact absurd hr h1
        | cons r l =>
          rw [← h2 r (by rw [hr]; exact List.mem_cons_self _ _)]
          exact groupKey_ne_empty r
      refine ⟨?_, hname⟩
      intro e
      rw [e] at hname
      exact hname rfl
  · obtain ⟨st, hst, -⟩ :=
      collectLoop_inv (S.sort (lessByLowerName lowerRune) repos) initialState []
        initialState_inv
    rw [hst]
    exact Option.some_ne_none _
  · simp [collectRepository, sort_nil, collectLoop, initialState]

/-! ## Invocations of the page-fetch function -/

/-- With a non-negative `count` and a fetch function that hands back a response
whenever it reports no error, no run of the loop ends in a run-time failure. -/
theorem queryListLoop_not_failed {σ : Type} (api : PageFetch σ) (count : Int) (h0 : 0 ≤ count)
    (hresp : ∀ s page, (api s page).1.err = none → (api s page).1.resp ≠ none) :
    ∀ (fuel : Nat) (s : σ) (page : Int) (acc : List Repository),
      (queryListLoop api count fuel s page acc).2 ≠ Outcome.failed := by
  intro fuel
  induction fuel with
  | zero =>
    intro s page acc
    unfold queryListLoop
    split_ifs
    · simp
    · rw [subList_of_nonneg count h0]; simp
  | succ fuel ih =>
    intro s page acc
    unfold queryListLoop
    by_cases hlen : (acc.length : Int) ≤ count
    · rw [if_pos hlen]
      simp only [append_if_nonempty, subList_of_nonneg count h0]
      cases herr : (api s page).1.err with
      | some e => simp
      | none =>
        simp only
        cases hr : (api s page).1.resp with
        | none => exact absurd hr (hresp s page herr)
        | some r =>
          simp only
          by_cases hn : r.NextPage = 0
          · rw [if_pos hn]; simp
          · rw [if_neg hn]
            exact ih _ _ _
    · rw [if_neg hlen, subList_of_nonneg count h0]; simp

theorem queryListLoop_guard {σ : Type} (api : PageFetch σ) (count : Int) (fuel : Nat) (s : σ)
    (page : Int) (acc : List Repository) (c : Call)
    (h : (queryListLoop api count fuel s page acc).1[0]? = some c) :
    (acc.length : Int) ≤ count := by
  by_contra hlen
  cases fuel with
  | zero =>
    unfold queryListLoop at h
    rw [if_neg hlen] at h
    simp at h
  | succ fuel =>
    unfold queryListLoop at h
    rw [if_neg hlen] at h
    simp at h

/-- The invocations of one run are chained: the first asks for the page the
loop was started with, and an invocation is followed by another only if it
returned no error and a response naming a next page other than 0, which the
next invocation asks for, and only if the accumulator did not exceed `count`. -/
theorem queryListLoop_chained {σ : Type} (api : PageFetch σ) (count : Int) :
    ∀ (fuel : Nat) (s : σ) (page : Int) (acc : List Repository),
      (∀ c, (queryListLoop api count fuel s page acc).1[0]? = some c → c.page = page) ∧
      (∀ (i : Nat) (c d : Call),
        (queryListLoop api count fuel s page acc).1[i]? = some c →
        (queryListLoop api count fuel s page acc).1[i + 1]? = some d →
        c.result.err = none ∧
        (∃ r, c.result.resp = some r ∧ r.NextPage ≠ 0 ∧ d.page = r.NextPage) ∧
        ((acc ++ fetched ((queryListLoop api count fuel s page acc).1.take (i + 1))).length
          : Int) ≤ count) := by
  intro fuel
  induction fuel with
  | zero =>
    intro s page acc
    unfold queryListLoop
    split_ifs <;> simp
  | succ fuel ih =>
    intro s page acc
    unfold queryListLoop
    by_cases hlen : (acc.length : Int) ≤ count
    · rw [if_pos hlen]
      simp only [append_if_nonempty]
      cases herr : (api s page).1.err with
      | some e => simp
      | none =>
        simp only
        cases hr : (api s page).1.resp with
        | none => simp
        | some r =>
          simp only
          by_cases hn : r.NextPage = 0
          · rw [if_pos hn]; simp
          · rw [if_neg hn]
            obtain ⟨ih1, ih2⟩ := ih (api s page).2 r.NextPage (acc ++ (api s page).1.repo)
            constructor
            · intro c hc
              simp only [List.getElem?_cons_zero, Option.some.injEq] at hc
              rw [← hc]
            · intro i c d hc hd
              cases i with
              | zero =>
                simp only [List.getElem?_cons_zero, Option.some.injEq] at hc
                simp only [List.getElem?_cons_succ] at hd
                subst hc
                refine ⟨herr, ⟨r, hr, hn, ih1 d hd⟩, ?_⟩
                have hg := queryListLoop_guard api count fuel _ _ _ d hd
                simpa [fetched] using hg
              | succ i =>
                simp only [List.getElem?_cons_succ] at hc hd
                obtain ⟨h1, h2, h3⟩ := ih2 i c d hc hd
                refine ⟨h1, h2, ?_⟩
                simpa [fetched, List.append_assoc] using h3
    · rw [if_neg hlen]
      simp


/-- When every page served without error holds a record, the number of
invocations is bounded by what is missing to exceed `count`, and a budget of
that many invocations is enough for the loop to end. -/
theorem queryListLoop_bound {σ : Type} (api : PageFetch σ) (count : Int) (h0 : 0 ≤ count)
    (hpages : ∀ s page, (api s page).1.err = none → (api s page).1.repo ≠ []) :
    ∀ (fuel : Nat) (s : σ) (page : Int) (acc : List Repository),
      (queryListLoop api count fuel s page acc).1.length ≤ count.toNat + 1 - acc.length ∧
      (count.toNat + 1 ≤ fuel + acc.length →
        (queryListLoop api count fuel s page acc).2 ≠ Outcome.unfinished) := by
  intro fuel
  induction fuel with
  | zero =>
    intro s page acc
    unfold queryListLoop
    by_cases hlen : (acc.length : Int) ≤ count
    · rw [if_pos hlen]
      refine ⟨by simp, ?_⟩
      intro hf
      omega
    · rw [if_neg hlen, subList_of_nonneg count h0]
      simp
  | succ fuel ih =>
    intro s page acc
    unfold queryListLoop
    by_cases hlen : (acc.length : Int) ≤ count
    · rw [if_pos hlen]
      simp only [append_if_nonempty, subList_of_nonneg count h0]
      have hone : 1 ≤ count.toNat + 1 - acc.length := by omega
      cases herr : (api s page).1.err with
      | some e => simp; exact hone
      | none =>
        simp only
        cases hr : (api s page).1.resp with
        | none => simp; exact hone
        | some r =>
          simp only
          by_cases hn : r.NextPage = 0
          · rw [if_pos hn]; simp; exact hone
          · rw [if_neg hn]
            obtain ⟨ih1, ih2⟩ := ih (api s page).2 r.NextPage (acc ++ (api s page).1.repo)
            have hpos : 0 < (api s page).1.repo.length :=
              List.length_pos.mpr (hpages s page herr)
            simp only [List.length_append] at ih1 ih2
            simp only [List.length_cons]
            constructor
            · omega
            · intro hf
              exact ih2 (by omega)
    · rw [if_neg hlen, subList_of_nonneg count h0]
      simp

/-- Claim C18: for every limit >= 0 and every page source whose error-free
answers each hold at least one record, a budget of `limit + 1` invocations is
enough for `queryList` to end, and it makes at most `limit + 1` invocations;
the first asks for page 1, each later one asks for the next page named by the
previous response, and an invocation is followed by another only if it returned
no error, its response named a next page other than 0 and the accumulator did
not hold more than `limit` records.  When moreover every error-free answer
carries a response, the run ends by returning. -/
theorem queryList_invocation_bound {σ : Type} (api : PageFetch σ) (s : σ) (limit : Int)
    (fuel : Nat) (hlimit : 0 ≤ limit)
    (hpages : ∀ s page, (api s page).1.err = none → (api s page).1.repo ≠ [])
    (hfuel : limit.toNat + 1 ≤ fuel) :
    (queryList api s limit fuel).2 ≠ Outcome.unfinished ∧
    (queryList api s limit fuel).1.length ≤ limit.toNat + 1 ∧
    (∀ c, (queryList api s limit fuel).1[0]? = some c → c.page = 1) ∧
    (∀ (i : Nat) (c d : Call),
      (queryList api s limit fuel).1[i]? = some c →
      (queryList api s limit fuel).1[i + 1]? = some d →
      c.result.err = none ∧
      (∃ r, c.result.resp = some r ∧ r.NextPage ≠ 0 ∧ d.page = r.NextPage) ∧
      ((fetched ((queryList api s limit fuel).1.take (i + 1))).length : Int) ≤ limit) ∧
    ((∀ s page, (api s page).1.err = none → (api s page).1.resp ≠ none) →
      ∃ recs err, (queryList api s limit fuel).2 = Outcome.returned recs err) := by
  obtain ⟨b1, b2⟩ := queryListLoop_bound api limit hlimit hpages fuel s 1 []
  obtain ⟨c1, c2⟩ := queryListLoop_chained api limit fuel s 1 []
  have hfin : (queryList api s limit fuel).2 ≠ Outcome.unfinished := b2 (by simpa using hfuel)
  refine ⟨hfin, by simpa using b1, c1, ?_, ?_⟩
  · intro i c d hc hd
    have := c2 i c d hc hd
    simpa [queryList] using this
  · intro hresp
    have hnf : (queryList api s limit fuel).2 ≠ Outcome.failed :=
      queryListLoop_not_failed api limit hlimit hresp fuel s 1 []
    cases h : (queryList api s limit fuel).2 with
    | returned recs err => exact ⟨recs, err, rfl⟩
    | failed => exact absurd h hnf
    | unfinished => exact absurd h hfin

theorem twoPageSource_pages_nonempty :
    ∀ (s : Unit) (page : Int),
      (twoPageSource s page).1.err = none → (twoPageSource s page).1.repo ≠ [] := by
  intro s page _
  unfold twoPageSource
  split_ifs <;> simp

/-- Witness for claim C18: limit 1 on the source of two pages. -/
theorem queryList_invocation_bound_witness :
    (queryList twoPageSource () 1 2).2 ≠ Outcome.unfinished ∧
    (queryList twoPageSource () 1 2).1.length ≤ (1 : Int).toNat + 1 :=
  ⟨(queryList_invocation_bound twoPageSource () 1 2 (by decide)
      twoPageSource_pages_nonempty (by decide)).1,
   (queryList_invocation_bound twoPageSource () 1 2 (by decide)
      twoPageSource_pages_nonempty (by decide)).2.1⟩

theorem twoPageSource_response :
    ∀ (s : Unit) (page : Int),
      (twoPageSource s page).1.err = none → (twoPageSource s page).1.resp ≠ none := by
  intro s page _
  unfold twoPageSource
  split_ifs <;> simp


/-- Claim C20: for every limit >= 0 and every fetch function that hands back a
response whenever it reports no error, no run of `queryList` ends in a
run-time failure: the closure `subList` always takes the first `limit` records
of what was accumulated (the empty list when nothing was), and the field
`NextPage` is read from a response that is there. -/
theorem queryList_never_fails {σ : Type} (api : PageFetch σ) (s : σ) (limit : Int) (fuel : Nat)
    (hlimit : 0 ≤ limit)
    (hresp : ∀ s page, (api s page).1.err = none → (api s page).1.resp ≠ none) :
    (queryList api s limit fuel).2 ≠ Outcome.failed ∧
    (∀ repos err, subList limit repos err = Outcome.returned (repos.take limit.toNat) err) ∧
    (∀ err, subList limit [] err = Outcome.returned [] err) := by
  refine ⟨queryListLoop_not_failed api limit hlimit hresp fuel s 1 [],
    fun repos err => subList_of_nonneg limit hlimit repos err, ?_⟩
  intro err
  rw [subList_of_nonneg limit hlimit, List.take_nil]

/-- Witness for claim C20: the source of two pages, limit 2. -/
theorem queryList_never_fails_witness :
    (queryList twoPageSource () 2 5).2 ≠ Outcome.failed :=
  (queryList_never_fails twoPageSource () 2 5 (by decide) twoPageSource_response).1

/-! ## The description of a record -/

/-- For patterns of one rune the scan replaces rune by rune. -/
theorem replaceAllRunes_single (old new : Char) : ∀ (fuel : Nat) (s : List Char),
    s.length ≤ fuel →
    replaceAllRunes [old] [new] fuel s = s.map (fun c => if c = old then new else c)
  | 0, s, h => by
    have : s = [] := List.length_eq_zero.mp (by omega)
    subst this; rfl
  | fuel + 1, [], _ => rfl
  | fuel + 1, c :: s, h => by
    have ih := replaceAllRunes_single old new fuel s (by simpa using h)
    by_cases hc : c = old
    · subst hc
      simp [replaceAllRunes, List.isPrefixOf, ih]
    · have hne : (old == c) = false := by
        simp only [beq_eq_false_iff_ne, ne_eq]
        exact fun e => hc e.symm
      simp [replaceAllRunes, List.isPrefixOf, ih, hc, hne]

/-- The one-rune replacement `replaceRune` is Go's general replacement applied
to patterns of one rune. -/
theorem replaceRune_eq_replaceAllRunes (s : String) (old new : Char) :
    replaceRune s old new = String.mk (replaceAllRunes [old] [new] s.data.length s.data) := by
  rw [replaceAllRunes_single old new _ _ (Nat.le_refl _)]
  rfl

/-- Claim C11: for every record, the line that `buildCollectContent` writes
for it (the body of its inner loop) ends with a description that has as many
characters as the record's description, with a space wherever the record's
description has a newline and the same character everywhere else; it holds no
newline. -/
theorem description_newlines_replaced (sb : String) (repo : Repository) :
    ∃ d : String,
      writeRecordLine sb repo =
        sb ++ ("- [" ++ repo.GetFullName ++ "](" ++ repo.GetHTMLURL ++ ") " ++ extend repo ++
          " " ++ d ++ "\n") ∧
      d.data.length = repo.GetDescription.data.length ∧
      (∀ (i : Nat) (c : Char), repo.GetDescription.data[i]? = some c →
        d.data[i]? = some (if c = Char.ofNat 10 then Char.ofNat 32 else c)) ∧
      Char.ofNat 10 ∉ d.data := by
  refine ⟨replaceRune repo.GetDescription (Char.ofNat 10) (Char.ofNat 32), rfl, ?_, ?_, ?_⟩
  · simp [replaceRune]
  · intro i c hc
    simp [replaceRune, List.getElem?_map, hc]
  · simp only [replaceRune, List.mem_map, not_exists, not_and]
    intro c _
    split_ifs with h
    · decide
    · exact h

/-! ## The filter loop of `main` -/

/-- The filter loop started at index `i` keeps the entries before `i` and
filters the rest. -/
theorem filterConfigs_spec : ∀ (fuel : Nat) (configs : List collectConfig) (i : Nat),
    i ≤ configs.length → configs.length - i ≤ fuel →
    filterConfigs fuel configs i =
      some (configs.take i ++ (configs.drop i).filter validKind)
  | 0, configs, i, hi, hf => by
    have : i = configs.length := by omega
    subst this
    simp [filterConfigs]
  | fuel + 1, configs, i, hi, hf => by
    unfold filterConfigs
    by_cases hlt : i < configs.length
    · rw [if_pos hlt, List.getElem?_eq_getElem hlt]
      simp only
      have hdrop : configs.drop i = configs[i] :: configs.drop (i + 1) :=
        List.drop_eq_getElem_cons hlt
      by_cases hbad : configs[i].UserType ≠ user ∧ configs[i].UserType ≠ org
      · rw [if_pos hbad]
        have hlen : (configs.take i ++ configs.drop (i + 1)).length = configs.length - 1 := by
          simp only [List.length_append, List.length_take, List.length_drop]
          omega
        rw [filterConfigs_spec fuel _ i (by omega) (by omega)]
        have h1 : (configs.take i ++ configs.drop (i + 1)).take i = configs.take i := by
          rw [List.take_append_of_le_length (by simp; omega)]
          rw [List.take_take, Nat.min_self]
        have h2 : (configs.take i ++ configs.drop (i + 1)).drop i = configs.drop (i + 1) := by
          rw [List.drop_append_of_le_length (by simp; omega)]
          rw [List.drop_eq_nil_of_le (by simp), List.nil_append]
        have hv : validKind configs[i] = false := by
          simp only [validKind, decide_eq_false_iff_not, not_or]
          exact hbad
        rw [h1, h2, hdrop, List.filter_cons_of_neg (by simp [hv])]
      · rw [if_neg hbad]
        rw [filterConfigs_spec fuel configs (i + 1) (by omega) (by omega)]
        have hv : validKind configs[i] = true := by
          simp only [validKind, decide_eq_true_eq]
          by_contra hc
          exact hbad (not_or.mp hc)
        rw [hdrop, List.filter_cons_of_pos hv, List.take_succ, List.getElem?_eq_getElem hlt]
        simp only [Option.toList_some, List.append_assoc, List.singleton_append]
    · rw [if_neg hlt]
      have : configs.drop i = [] := List.drop_eq_nil_of_le (by omega)
      rw [this, List.take_of_length_le (by omega)]
      simp

/-- Claim C12: for every list of target configurations the filter loop of
`main`, given a budget of at least as many iterations as there are entries,
ends and leaves exactly the entries whose kind is "user" or "org": a
sub-sequence of the list in its order, from which no valid entry is missing and
in which none occurs more often than before. -/
theorem filterConfigs_keeps_valid_kinds (configs : List collectConfig) (fuel : Nat)
    (hfuel : configs.length ≤ fuel) :
    filterConfigs fuel configs 0 =
      some (configs.filter (fun c => decide (c.UserType = user ∨ c.UserType = org))) ∧
    (configs.filter (fun c => decide (c.UserType = user ∨ c.UserType = org))).Sublist configs ∧
    (∀ c, c ∈ configs.filter (fun c => decide (c.UserType = user ∨ c.UserType = org)) ↔
      c ∈ configs ∧ (c.UserType = user ∨ c.UserType = org)) ∧
    (∀ c, c.UserType = user ∨ c.UserType = org →
      (configs.filter (fun c => decide (c.UserType = user ∨ c.UserType = org))).count c =
        configs.count c) := by
  refine ⟨?_, List.filter_sublist _, ?_, ?_⟩
  · have := filterConfigs_spec fuel configs 0 (Nat.zero_le _) (by simpa using hfuel)
    have e : validKind = fun c => decide (c.UserType = user ∨ c.UserType = org) := rfl
    rw [e] at this
    simpa using this
  · intro c
    simp [List.mem_filter]
  · intro c hc
    rw [List.count_filter (by simpa using hc)]

/-- Witness for claim C12: the entry of kind "team" is dropped. -/
theorem filterConfigs_keeps_valid_kinds_witness :
    filterConfigs 3
        [{ Name := "a", UserType := "user", OutputFile := "a.md" },
         { Name := "b", UserType := "team", OutputFile := "b.md" },
         { Name := "c", UserType := "org", OutputFile := "" }] 0 =
      some [{ Name := "a", UserType := "user", OutputFile := "a.md" },
            { Name := "c", UserType := "org", OutputFile := "" }] :=
  (filterConfigs_keeps_valid_kinds _ 3 (by decide)).1.trans (by decide)

/-! ## The collection loop of `main` -/

/-- The loop over a concatenation is the loop over the parts, one after the other. -/
theorem collectTargets_append {σ : Type} (E : Env σ) (fuel : Nat) (username : String) :
    ∀ (l1 l2 : List collectConfig) (st : CollectState σ),
      collectTargets E fuel username st (l1 ++ l2) =
        (collectTargets E fuel username st l1).bind
          (fun st1 => collectTargets E fuel username st1 l2)
  | [], l2, st => rfl
  | c :: l1, l2, st => by
    simp only [List.cons_append, collectTargets]
    cases h : collectTarget E fuel username st c with
    | none => rfl
    | some st1 => exact collectTargets_append E fuel username l1 l2 st1

/-- The content of a target of kind `user` or `org`, from the outcome of its fetch. -/
theorem targetContent_of_kind {σ : Type} (E : Env σ) (fuel : Nat) (username : String) (s : σ)
    (c : collectConfig) (hkind : c.UserType = user ∨ c.UserType = org) :
    targetContent E fuel username s c =
      match (queryList (sourceOf E c) s MaxInt32 fuel).2 with
      | Outcome.returned u err =>
        match err with
        | none =>
          match collectRepository E.sorter E.lowerRune u with
          | none => none
          | some repoGroup =>
            some (headerOf E c u.length ++ buildCollectContent E.lowerRune repoGroup ++
                E.templates.license username username,
              worldAfter (sourceOf E c) s (queryList (sourceOf E c) s MaxInt32 fuel).1)
        | some _ =>
          some ("", worldAfter (sourceOf E c) s (queryList (sourceOf E c) s MaxInt32 fuel).1)
      | Outcome.failed => none
      | Outcome.unfinished => none := by
  unfold targetContent sourceOf headerOf
  by_cases hu : c.UserType = user
  · simp only [if_pos hu, fetchContent, buildUserStartContent]
    cases (queryList (starredByUser E.client c.Name) s MaxInt32 fuel).2 with
    | returned u err =>
      cases err with
      | none => cases h : collectRepository E.sorter E.lowerRune u <;> simp [h]
      | some e => rfl
    | failed => rfl
    | unfinished => rfl
  · have ho : c.UserType = org := hkind.resolve_left hu
    simp only [if_neg hu, if_pos ho, fetchContent, buildOrgReposContent]
    cases (queryList (reposByOrg E.client c.Name) s MaxInt32 fuel).2 with
    | returned u err =>
      cases err with
      | none => cases h : collectRepository E.sorter E.lowerRune u <;> simp [h]
      | some e => rfl
    | failed => rfl
    | unfinished => rfl


/-- Targets that store nothing under the key `k` leave its entry as it was. -/
theorem collectTargets_unchanged {σ : Type} (E : Env σ) (fuel : Nat) (username : String)
    (k : String) :
    ∀ (cs : List collectConfig) (st : CollectState σ) (contents : List String),
      targetContents E fuel username st.world cs = some contents →
      (∀ (j : Nat) (c1 : collectConfig) (doc1 : String), cs[j]? = some c1 →
        contents[j]? = some doc1 → c1.OutputFile = k → doc1 = "") →
      ∃ fin, collectTargets E fuel username st cs = some fin ∧
        fin.collectRepos k = st.collectRepos k
  | [], st, contents, _, _ => ⟨st, rfl, rfl⟩
  | c :: cs, st, contents, hc, hno => by
    simp only [targetContents] at hc
    cases ht : targetContent E fuel username st.world c with
    | none => simp [ht] at hc
    | some p =>
      obtain ⟨content, w⟩ := p
      simp only [ht, Option.map_eq_some'] at hc
      obtain ⟨rest, hrest, hcont⟩ := hc
      subst hcont
      have hno1 : ∀ (j : Nat) (c1 : collectConfig) (doc1 : String), cs[j]? = some c1 →
          rest[j]? = some doc1 → c1.OutputFile = k → doc1 = "" := by
        intro j c1 doc1 h1 h2 h3
        exact hno (j + 1) c1 doc1 (by simpa using h1) (by simpa using h2) h3
      have hhead : c.OutputFile = k → content = "" := by
        intro h
        exact hno 0 c content (by simp) (by simp) h
      by_cases hstore : c.OutputFile ≠ "" ∧ content ≠ ""
      · have hk : k ≠ c.OutputFile := fun e => hstore.2 (hhead e.symm)
        obtain ⟨fin, h1, h2⟩ := collectTargets_unchanged E fuel username k cs
          { world := w,
            collectRepos := fun k1 => if k1 = c.OutputFile then some content
                                      else st.collectRepos k1,
            nofile := st.nofile } rest hrest hno1
        refine ⟨fin, ?_, ?_⟩
        · simp only [collectTargets, collectTarget, ht, if_pos hstore]
          exact h1
        · rw [h2]
          simp only [if_neg hk]
      · obtain ⟨fin, h1, h2⟩ := collectTargets_unchanged E fuel username k cs
          { world := w, collectRepos := st.collectRepos, nofile := st.nofile ++ [content] }
          rest hrest hno1
        refine ⟨fin, ?_, h2⟩
        simp only [collectTargets, collectTarget, ht, if_neg hstore]
        exact h1

theorem append_ne_empty_right (a b : String) (h : b ≠ "") : a ++ b ≠ "" := by
  intro e
  have h1 := congrArg String.length e
  rw [String.length_append] at h1
  have h2 : b.length = 0 := by
    have : ("" : String).length = 0 := rfl
    omega
  apply h
  cases b with
  | mk l =>
    have : l = [] := List.length_eq_zero.mp h2
    subst this
    rfl

theorem append_ne_empty_left (a b : String) (h : a ≠ "") : a ++ b ≠ "" := by
  intro e
  have h1 := congrArg String.length e
  rw [String.length_append] at h1
  have h2 : a.length = 0 := by
    have : ("" : String).length = 0 := rfl
    omega
  apply h
  cases a with
  | mk l =>
    have : l = [] := List.length_eq_zero.mp h2
    subst this
    rfl

/-- The text of `buildCollectContent` is never empty: it holds the separator line. -/
theorem buildCollectContent_ne_empty (lowerRune : Char → Char) (groups : List group) :
    buildCollectContent lowerRune groups ≠ "" := by
  unfold buildCollectContent
  simp only
  rw [foldl_writeSection]
  exact append_ne_empty_left _ _ (append_ne_empty_right _ _ (by decide))

/-- A record that belongs to `owner`, written in Go. -/
def ownedRepo (owner : String) : Repository :=
  { Name := some "repo", FullName := some (owner ++ "/repo"), Language := some "Go",
    Description := none, HTMLURL := none, PushedAt := none, StargazersCount := none,
    ForksCount := none }

/-- A client for the worked instances.  The user "ghost" cannot be listed; the
user "flaky" has a first page that names page 2, which cannot be fetched; every
other user or organization has one page holding one record. -/
def demoClient : Client Unit where
  ListStarred := fun _ name page =>
    if name = "ghost" then (([], none, some "404 Not Found"), ())
    else if name = "flaky" then
      if page = 1 then (([{ Repository := ownedRepo name }], some { NextPage := 2 }, none), ())
      else (([], none, some "rate limit"), ())
    else (([{ Repository := ownedRepo name }], some { NextPage := 0 }, none), ())
  ListByOrg := fun _ name _ => (([ownedRepo name], some { NextPage := 0 }, none), ())

/-- Templates for the worked instances. -/
def demoTemplates : Templates where
  starsDesc := fun n => "# stars (" ++ Nat.repr n ++ ")\n\n"
  reposDesc := fun name n => "# " ++ name ++ " (" ++ Nat.repr n ++ ")\n\n"
  license := fun a b => "license: " ++ a ++ ", " ++ b ++ "\n"

/-- The environment of the worked instances: Go's insertion sort, the ASCII
case table, `demoTemplates` and `demoClient`. -/
def demoEnv : Env Unit where
  sorter := insertionSorter
  lowerRune := Char.toLower
  templates := demoTemplates
  client := demoClient

/-- The state before the loop of lines 155-174: an empty map and an empty slice. -/
def emptyCollectState : CollectState Unit :=
  { world := (), collectRepos := fun _ => none, nofile := [] }

/-- Claim C13, amended: for every list of targets `pre ++ c :: post`, if the
loop gets through `pre`, the fetch for `c` (of kind "user" or "org") returns
records and no error, the output file of `c` is non-empty, the targets of
`post` all get a content and every one of them that has the same output file
as `c` gets the empty content, then the loop ends and the publish set maps the
output file of `c` to the full document of `c`: header, rendered body and
license block. -/
theorem collectTargets_publishes_last_success {σ : Type} (E : Env σ) (fuel : Nat)
    (username : String) (st0 st1 : CollectState σ) (pre post : List collectConfig)
    (c : collectConfig) (u : List Repository) (later : List String)
    (hpre : collectTargets E fuel username st0 pre = some st1)
    (hkind : c.UserType = user ∨ c.UserType = org)
    (hfetch : (queryList (sourceOf E c) st1.world MaxInt32 fuel).2 = Outcome.returned u none)
    (hfile : c.OutputFile ≠ "")
    (hpost : targetContents E fuel username
      (worldAfter (sourceOf E c) st1.world (queryList (sourceOf E c) st1.world MaxInt32 fuel).1)
      post = some later)
    (hlast : ∀ (j : Nat) (c1 : collectConfig) (doc1 : String), post[j]? = some c1 →
      later[j]? = some doc1 → c1.OutputFile = c.OutputFile → doc1 = "") :
    ∃ (fin : CollectState σ) (repoGroup : List group),
      collectTargets E fuel username st0 (pre ++ c :: post) = some fin ∧
      collectRepository E.sorter E.lowerRune u = some repoGroup ∧
      fin.collectRepos c.OutputFile =
        some (headerOf E c u.length ++ buildCollectContent E.lowerRune repoGroup ++
          E.templates.license username username) := by
  obtain ⟨g, hg, -⟩ := collectRepository_unsorted E.sorter E.lowerRune u
  have ht := targetContent_of_kind E fuel username st1.world c hkind
  rw [hfetch] at ht
  simp only [hg] at ht
  have hne : headerOf E c u.length ++
      buildCollectContent E.lowerRune (E.sorter.sort lessByGroupName g) ++
      E.templates.license username username ≠ "" :=
    append_ne_empty_left _ _ (append_ne_empty_right _ _ (buildCollectContent_ne_empty _ _))
  obtain ⟨fin, h1, h2⟩ := collectTargets_unchanged E fuel username c.OutputFile post
    { world := worldAfter (sourceOf E c) st1.world
        (queryList (sourceOf E c) st1.world MaxInt32 fuel).1,
      collectRepos := fun k1 =>
        if k1 = c.OutputFile then
          some (headerOf E c u.length ++
            buildCollectContent E.lowerRune (E.sorter.sort lessByGroupName g) ++
            E.templates.license username username)
        else st1.collectRepos k1,
      nofile := st1.nofile } later hpost hlast
  refine ⟨fin, _, ?_, hg, ?_⟩
  · rw [collectTargets_append, hpre]
    simp only [Option.some_bind, collectTargets, collectTarget, ht, if_pos (And.intro hfile hne)]
    exact h1
  · rw [h2]
    simp

/-- Claim C14: for every list of targets `pre ++ c :: post`, if the loop gets
through `pre` and the fetch for `c` (of kind "user" or "org") returns an error,
with whatever partial records, then the content of `c` is empty, the loop
leaves the publish set as it was and puts the empty content on the print list,
and the targets of `post` are processed by the same loop from that state. -/
theorem collectTargets_skips_failed_fetch {σ : Type} (E : Env σ) (fuel : Nat)
    (username : String) (st0 st1 : CollectState σ) (pre post : List collectConfig)
    (c : collectConfig) (u : List Repository) (e : GoError)
    (hpre : collectTargets E fuel username st0 pre = some st1)
    (hkind : c.UserType = user ∨ c.UserType = org)
    (hfetch : (queryList (sourceOf E c) st1.world MaxInt32 fuel).2 =
      Outcome.returned u (some e)) :
    targetContent E fuel username st1.world c =
      some ("", worldAfter (sourceOf E c) st1.world
        (queryList (sourceOf E c) st1.world MaxInt32 fuel).1) ∧
    collectTargets E fuel username st0 (pre ++ [c]) =
      some { world := worldAfter (sourceOf E c) st1.world
               (queryList (sourceOf E c) st1.world MaxInt32 fuel).1,
             collectRepos := st1.collectRepos,
             nofile := st1.nofile ++ [""] } ∧
    collectTargets E fuel username st0 (pre ++ c :: post) =
      collectTargets E fuel username
        { world := worldAfter (sourceOf E c) st1.world
            (queryList (sourceOf E c) st1.world MaxInt32 fuel).1,
          collectRepos := st1.collectRepos,
          nofile := st1.nofile ++ [""] } post := by
  have ht := targetContent_of_kind E fuel username st1.world c hkind
  rw [hfetch] at ht
  simp only at ht
  refine ⟨ht, ?_, ?_⟩
  · rw [collectTargets_append, hpre]
    simp [collectTargets, collectTarget, ht]
  · rw [collectTargets_append, hpre]
    simp [collectTargets, collectTarget, ht]


set_option maxRecDepth 100000 in
/-- Counterexample to claim C13: two targets with the same output file whose
fetches both succeed; after the loop the publish set holds the document of the
second one, which differs from the document of the first. -/
theorem collectTargets_same_designator_overwritten :
    (queryList (sourceOf demoEnv { Name := "alice", UserType := "user", OutputFile := "out.md" })
        () MaxInt32 3).2 = Outcome.returned [ownedRepo "alice"] none ∧
    (collectTargets demoEnv 3 "me" emptyCollectState
        [{ Name := "alice", UserType := "user", OutputFile := "out.md" },
         { Name := "bob", UserType := "user", OutputFile := "out.md" }]).map
      (fun st => st.collectRepos "out.md") =
      some (buildUserStartContent demoEnv [ownedRepo "bob"] "me"
        { Name := "bob", UserType := "user", OutputFile := "out.md" }) ∧
    buildUserStartContent demoEnv [ownedRepo "bob"] "me"
        { Name := "bob", UserType := "user", OutputFile := "out.md" } ≠
      buildUserStartContent demoEnv [ownedRepo "alice"] "me"
        { Name := "alice", UserType := "user", OutputFile := "out.md" } ∧
    (buildUserStartContent demoEnv [ownedRepo "alice"] "me"
        { Name := "alice", UserType := "user", OutputFile := "out.md" }).isSome = true := by
  decide

set_option maxRecDepth 100000 in
/-- Witness for the amended claim C13: the target "alice" is followed by the
target "ghost", which has the same output file and cannot be fetched. -/
theorem collectTargets_publishes_last_success_witness :
    ∃ (fin : CollectState Unit) (repoGroup : List group),
      collectTargets demoEnv 3 "me" emptyCollectState
        ([] ++ { Name := "alice", UserType := "user", OutputFile := "out.md" } ::
          [{ Name := "ghost", UserType := "user", OutputFile := "out.md" }]) = some fin ∧
      collectRepository demoEnv.sorter demoEnv.lowerRune [ownedRepo "alice"] = some repoGroup ∧
      fin.collectRepos "out.md" =
        some (headerOf demoEnv { Name := "alice", UserType := "user", OutputFile := "out.md" }
            [ownedRepo "alice"].length ++
          buildCollectContent demoEnv.lowerRune repoGroup ++
          demoEnv.templates.license "me" "me") :=
  collectTargets_publishes_last_success demoEnv 3 "me" emptyCollectState emptyCollectState []
    [{ Name := "ghost", UserType := "user", OutputFile := "out.md" }]
    { Name := "alice", UserType := "user", OutputFile := "out.md" } [ownedRepo "alice"] [""]
    rfl (Or.inl rfl) (by decide) (by decide) (by decide)
    (by
      intro j c1 doc1 _ h2 _
      cases j with
      | zero =>
        simp only [List.getElem?_cons_zero, Option.some.injEq] at h2
        exact h2.symm
      | succ j => simp at h2)

set_option maxRecDepth 100000 in
/-- Witness for claim C14: the fetch for "flaky" fails on its second page
after one record was accumulated. -/
theorem collectTargets_skips_failed_fetch_witness :
    (queryList (sourceOf demoEnv { Name := "flaky", UserType := "user", OutputFile := "f.md" })
        () MaxInt32 3).2 = Outcome.returned [ownedRepo "flaky"] (some "rate limit") ∧
    collectTargets demoEnv 3 "me" emptyCollectState
        ([] ++ { Name := "flaky", UserType := "user", OutputFile := "f.md" } ::
          [{ Name := "alice", UserType := "user", OutputFile := "out.md" }]) =
      collectTargets demoEnv 3 "me"
        { world := worldAfter
            (sourceOf demoEnv { Name := "flaky", UserType := "user", OutputFile := "f.md" })
            emptyCollectState.world
            (queryList
              (sourceOf demoEnv { Name := "flaky", UserType := "user", OutputFile := "f.md" })
              emptyCollectState.world MaxInt32 3).1,
          collectRepos := emptyCollectState.collectRepos,
          nofile := emptyCollectState.nofile ++ [""] }
        [{ Name := "alice", UserType := "user", OutputFile := "out.md" }] :=
  ⟨by decide,
   (collectTargets_skips_failed_fetch demoEnv 3 "me" emptyCollectState emptyCollectState []
      [{ Name := "alice", UserType := "user", OutputFile := "out.md" }]
      { Name := "flaky", UserType := "user", OutputFile := "f.md" } [ownedRepo "flaky"]
      "rate limit" rfl (Or.inl rfl) (by decide)).2.2⟩

/-! ## Independence of the fetch order -/

/-- Two arrangements of the same elements that are both strictly ascending for
a key comparison are the same list. -/
theorem eq_of_perm_of_strictly_sorted {α : Type} (key : α → String) (l1 l2 : List α)
    (hp : l1.Perm l2)
    (h1 : l1.Pairwise (fun a b => stringLess (key a) (key b) = true))
    (h2 : l2.Pairwise (fun a b => stringLess (key a) (key b) = true)) : l1 = l2 := by
  haveI : IsAntisymm α (fun a b => stringLess (key a) (key b) = true) :=
    ⟨fun a b hab hba => by
      have := stringLess_trans _ _ _ hab hba
      rw [stringLess_irrefl] at this
      cases this⟩
  exact List.eq_of_perm_of_sorted hp h1 h2

/-- In a list of groups with distinct names whose records carry the name of
their group as key, the records with the key of a group are its records. -/
theorem filter_flatMap_group (x : group) : ∀ (g : List group),
    (g.map (fun y => y.name)).Nodup →
    (∀ y ∈ g, ∀ r ∈ y.repo, groupKey r = y.name) → x ∈ g →
    (g.flatMap (fun y => y.repo)).filter (fun r => decide (groupKey r = x.name)) = x.repo
  | [], _, _, hx => by simp at hx
  | y :: g, hnd, hk, hx => by
    simp only [List.map_cons, List.nodup_cons, List.mem_map, not_exists, not_and] at hnd
    simp only [List.flatMap_cons, List.filter_append]
    rcases List.mem_cons.mp hx with hxy | hxg
    · subst hxy
      have h1 : x.repo.filter (fun r => decide (groupKey r = x.name)) = x.repo := by
        rw [List.filter_eq_self]
        intro r hr
        simpa using hk x (List.mem_cons_self _ _) r hr
      have h2 : (g.flatMap (fun y => y.repo)).filter (fun r => decide (groupKey r = x.name))
          = [] := by
        rw [List.filter_eq_nil_iff]
        intro r hr
        obtain ⟨z, hz, hrz⟩ := List.mem_flatMap.mp hr
        have := hk z (List.mem_cons_of_mem _ hz) r hrz
        simp only [decide_eq_true_eq]
        intro e
        exact hnd.1 z hz (by rw [← this, e])
      rw [h1, h2, List.append_nil]
    · have h1 : y.repo.filter (fun r => decide (groupKey r = x.name)) = [] := by
        rw [List.filter_eq_nil_iff]
        intro r hr
        have := hk y (List.mem_cons_self _ _) r hr
        simp only [decide_eq_true_eq]
        intro e
        exact hnd.1 x hxg (by rw [← e, this])
      rw [h1, List.nil_append]
      exact filter_flatMap_group x g hnd.2
        (fun z hz => hk z (List.mem_cons_of_mem _ hz)) hxg

/-- What `collectRepository` returns is determined by the multiset of records
when no two records of one group have the same lower-cased display name. -/
theorem collectRepository_canonical (S : SliceSorter) (lowerRune : Char → Char)
    (l : List Repository)
    (hties : l.Pairwise (fun a b => groupKey a = groupKey b →
      toLower lowerRune a.GetName ≠ toLower lowerRune b.GetName)) :
    ∃ gs : List group, collectRepository S lowerRune l = some gs ∧
      (gs.map (fun g => g.name)).Pairwise (fun a b => stringLess a b = true) ∧
      (∀ name, (∃ x ∈ gs, x.name = name) ↔ ∃ r ∈ l, groupKey r = name) ∧
      (∀ x ∈ gs, x.repo.Perm (l.filter (fun r => decide (groupKey r = x.name))) ∧
        x.repo.Pairwise (fun a b => stringLess (toLower lowerRune a.GetName)
          (toLower lowerRune b.GetName) = true)) := by
  obtain ⟨g, hres, hnodup, hkeys, hperm⟩ := collectRepository_unsorted S lowerRune l
  have hsortedIn := S.sorted (lessByLowerName lowerRune) l
    (strictWeakOrder_of_key (fun r : Repository => toLower lowerRune r.GetName))
  have htiesSorted : (S.sort (lessByLowerName lowerRune) l).Pairwise (fun a b =>
      groupKey a = groupKey b → toLower lowerRune a.GetName ≠ toLower lowerRune b.GetName) :=
    ((S.perm (lessByLowerName lowerRune) l).pairwise_iff
      (fun {x y} h e => fun e2 => h e.symm e2.symm)).mpr hties
  have hpg := S.perm lessByGroupName g
  refine ⟨_, hres, ?_, ?_, ?_⟩
  · have hs := S.sorted lessByGroupName g (strictWeakOrder_of_key (fun x : group => x.name))
    have hn : (S.sort lessByGroupName g).Pairwise (fun a b => a.name ≠ b.name) :=
      List.pairwise_map.mp ((hpg.map _).nodup_iff.mpr hnodup)
    rw [List.pairwise_map]
    refine (hs.and hn).imp ?_
    intro a b hab
    cases h : stringLess a.name b.name
    · exact absurd (stringLess_total _ _ h hab.1) hab.2
    · rfl
  · intro name
    constructor
    · rintro ⟨x, hx, rfl⟩
      have hxg := hpg.mem_iff.mp hx
      obtain ⟨h1, h2, -⟩ := hkeys x hxg
      obtain ⟨r, hr⟩ := List.exists_mem_of_ne_nil _ h1
      exact ⟨r, hperm.mem_iff.mp (List.mem_flatMap.mpr ⟨x, hxg, hr⟩), h2 r hr⟩
    · rintro ⟨r, hr, rfl⟩
      obtain ⟨x, hxg, hrx⟩ := List.mem_flatMap.mp (hperm.mem_iff.mpr hr)
      exact ⟨x, hpg.mem_iff.mpr hxg, ((hkeys x hxg).2.1 r hrx).symm⟩
  · intro x hx
    have hxg := hpg.mem_iff.mp hx
    obtain ⟨-, h2, h3⟩ := hkeys x hxg
    constructor
    · have := hperm.filter (fun r => decide (groupKey r = x.name))
      rwa [filter_flatMap_group x g hnodup (fun y hy => (hkeys y hy).2.1) hxg] at this
    · have ha := hsortedIn.sublist h3
      have hb := htiesSorted.sublist h3
      have hc : x.repo.Pairwise (fun a b => a ∈ x.repo ∧ b ∈ x.repo) :=
        List.pairwise_of_forall_mem_list (fun a ha b hb => ⟨ha, hb⟩)
      refine ((ha.and hb).and hc).imp ?_
      rintro a b ⟨⟨hab1, hab2⟩, hma, hmb⟩
      cases h : stringLess (toLower lowerRune a.GetName) (toLower lowerRune b.GetName)
      · exfalso
        have e := stringLess_total _ _ h hab1
        exact hab2 (by rw [h2 a hma, h2 b hmb]) e
      · rfl


/-- A group returned for one arrangement of the records is returned for every other. -/
theorem group_mem_of_canonical (lowerRune : Char → Char) (l1 l2 : List Repository)
    (hperm : l1.Perm l2) (gs1 gs2 : List group)
    (hn1 : ∀ name, (∃ x ∈ gs1, x.name = name) ↔ ∃ r ∈ l1, groupKey r = name)
    (hn2 : ∀ name, (∃ x ∈ gs2, x.name = name) ↔ ∃ r ∈ l2, groupKey r = name)
    (hr1 : ∀ x ∈ gs1, x.repo.Perm (l1.filter (fun r => decide (groupKey r = x.name))) ∧
      x.repo.Pairwise (fun a b => stringLess (toLower lowerRune a.GetName)
        (toLower lowerRune b.GetName) = true))
    (hr2 : ∀ x ∈ gs2, x.repo.Perm (l2.filter (fun r => decide (groupKey r = x.name))) ∧
      x.repo.Pairwise (fun a b => stringLess (toLower lowerRune a.GetName)
        (toLower lowerRune b.GetName) = true))
    (x : group) (hx : x ∈ gs1) : x ∈ gs2 := by
  obtain ⟨r, hr, hkey⟩ := (hn1 x.name).mp ⟨x, hx, rfl⟩
  obtain ⟨y, hy, hname⟩ := (hn2 x.name).mpr ⟨r, hperm.mem_iff.mp hr, hkey⟩
  have hp : x.repo.Perm y.repo := by
    refine (hr1 x hx).1.trans ?_
    refine (hperm.filter _).trans ?_
    rw [← hname]
    exact (hr2 y hy).1.symm
  have he : x.repo = y.repo :=
    eq_of_perm_of_strictly_sorted (fun r : Repository => toLower lowerRune r.GetName) _ _ hp
      (hr1 x hx).2 (hr2 y hy).2
  have : x = y := by
    cases x; cases y
    simp only at hname he
    rw [hname, he]
  rw [this]
  exact hy

/-- Claim C17, amended: for any two record lists that are permutations of
each other and in which no two records of one group (records with the same
group key) have the same lower-cased display name, `collectRepository` returns
the same sequence of groups with the same record order inside every group, and
`buildCollectContent` yields the same text for both. -/
theorem collectRepository_order_independent (S : SliceSorter) (lowerRune : Char → Char)
    (l1 l2 : List Repository) (hperm : l1.Perm l2)
    (hties : l1.Pairwise (fun a b => groupKey a = groupKey b →
      toLower lowerRune a.GetName ≠ toLower lowerRune b.GetName)) :
    (∃ gs : List group, collectRepository S lowerRune l1 = some gs ∧
      collectRepository S lowerRune l2 = some gs) ∧
    (collectRepository S lowerRune l1).map (buildCollectContent lowerRune) =
      (collectRepository S lowerRune l2).map (buildCollectContent lowerRune) := by
  have hties2 : l2.Pairwise (fun a b => groupKey a = groupKey b →
      toLower lowerRune a.GetName ≠ toLower lowerRune b.GetName) :=
    (hperm.pairwise_iff (fun {x y} h e => fun e2 => h e.symm e2.symm)).mp hties
  obtain ⟨gs1, e1, s1, n1, r1⟩ := collectRepository_canonical S lowerRune l1 hties
  obtain ⟨gs2, e2, s2, n2, r2⟩ := collectRepository_canonical S lowerRune l2 hties2
  have hnd : ∀ gs : List group,
      (gs.map (fun g => g.name)).Pairwise (fun a b => stringLess a b = true) → gs.Nodup := by
    intro gs h
    refine List.Nodup.of_map (fun g : group => g.name) ?_
    refine h.imp ?_
    intro a b hab e
    rw [e, stringLess_irrefl] at hab
    cases hab
  have hp : gs1.Perm gs2 :=
    (List.perm_ext_iff_of_nodup (hnd gs1 s1) (hnd gs2 s2)).mpr (fun x =>
      ⟨group_mem_of_canonical lowerRune l1 l2 hperm gs1 gs2 n1 n2 r1 r2 x,
       group_mem_of_canonical lowerRune l2 l1 hperm.symm gs2 gs1 n2 n1 r2 r1 x⟩)
  have he : gs1 = gs2 :=
    eq_of_perm_of_strictly_sorted (fun g : group => g.name) gs1 gs2 hp
      (List.pairwise_map.mp s1) (List.pairwise_map.mp s2)
  subst he
  exact ⟨⟨gs1, e1, e2⟩, by rw [e1, e2]⟩

/-- Counterexample to claim C17: two records of one group with the same
display name keep their input order, so the two orders of the input give
different groups and different texts. -/
theorem collectRepository_depends_on_order :
    [ownedRepo "x", ownedRepo "y"].Perm [ownedRepo "y", ownedRepo "x"] ∧
    collectRepository insertionSorter Char.toLower [ownedRepo "x", ownedRepo "y"] =
      some [{ name := "Go", repo := [ownedRepo "x", ownedRepo "y"] }] ∧
    collectRepository insertionSorter Char.toLower [ownedRepo "y", ownedRepo "x"] =
      some [{ name := "Go", repo := [ownedRepo "y", ownedRepo "x"] }] ∧
    collectRepository insertionSorter Char.toLower [ownedRepo "x", ownedRepo "y"] ≠
      collectRepository insertionSorter Char.toLower [ownedRepo "y", ownedRepo "x"] ∧
    (collectRepository insertionSorter Char.toLower [ownedRepo "x", ownedRepo "y"]).map
        (buildCollectContent Char.toLower) ≠
      (collectRepository insertionSorter Char.toLower [ownedRepo "y", ownedRepo "x"]).map
        (buildCollectContent Char.toLower) := by
  refine ⟨List.Perm.swap _ _ _, by decide, by decide, by decide, by decide⟩

/-- Witness for the amended claim C17: three records, two of them with the
same name in different groups, in two orders. -/
theorem collectRepository_order_independent_witness :
    (∃ gs : List group,
      collectRepository insertionSorter Char.toLower
        [sampleRepo "b" "Go", sampleRepo "a" "Go", sampleRepo "a" "C"] = some gs ∧
      collectRepository insertionSorter Char.toLower
        [sampleRepo "a" "C", sampleRepo "a" "Go", sampleRepo "b" "Go"] = some gs) ∧
    (collectRepository insertionSorter Char.toLower
        [sampleRepo "b" "Go", sampleRepo "a" "Go", sampleRepo "a" "C"]).map
        (buildCollectContent Char.toLower) =
      (collectRepository insertionSorter Char.toLower
        [sampleRepo "a" "C", sampleRepo "a" "Go", sampleRepo "b" "Go"]).map
        (buildCollectContent Char.toLower) :=
  collectRepository_order_independent insertionSorter Char.toLower
    [sampleRepo "b" "Go", sampleRepo "a" "Go", sampleRepo "a" "C"]
    [sampleRepo "a" "C", sampleRepo "a" "Go", sampleRepo "b" "Go"]
    (by decide) (by decide)

/-! ## The Commit Composer -/

/-- Claim C15: for every publish request and every object store, if an
invocation other than `updateRef` (one of `getRef`, `createTree`, `getCommit`,
`createCommit`) returns an error, then `commit` returns that error, that
invocation is the last one, the invocations made are the steps of the protocol
in order up to it, `updateRef` is not among them, and every ref of the store
points where it pointed before. -/
theorem commit_stops_at_failed_step {τ : Type} (store : ObjectStore τ) (now : Nat)
    (message : String) (s : τ) (owner repo branch commitAuthor commitEmail : String)
    (contents : List (String × String)) (k : Nat) (call : StoreCall) (e : GoError)
    (hk : (commit store now message s owner repo branch commitAuthor commitEmail
      contents).calls[k]? = some call)
    (herr : call.err = some e) (hstep : call.op.step ≠ 5) :
    (commit store now message s owner repo branch commitAuthor commitEmail contents).outcome =
      CommitOutcome.returned (some e) ∧
    (commit store now message s owner repo branch commitAuthor commitEmail
      contents).calls.length = k + 1 ∧
    (commit store now message s owner repo branch commitAuthor commitEmail
      contents).calls.map (fun c => c.op.step) = List.range' 1 (k + 1) ∧
    (∀ c ∈ (commit store now message s owner repo branch commitAuthor commitEmail
      contents).calls, c.op.step ≠ 5) ∧
    store.tip (commit store now message s owner repo branch commitAuthor commitEmail
      contents).state = store.tip s := by
  unfold commit at hk ⊢
  simp only at hk ⊢
  cases h1 : (store.GetRef s owner repo ("heads/" ++ branch)).1 with
  | error e1 =>
    simp only [h1] at hk ⊢
    cases k with
    | zero =>
      simp only [List.getElem?_cons_zero, Option.some.injEq] at hk
      subst hk
      simp only [Option.some.injEq] at herr
      subst herr
      refine ⟨rfl, rfl, rfl, by simp [StoreOp.step], store.getRef_tip _ _ _ _⟩
    | succ k => simp at hk
  | ok ref =>
    simp only [h1] at hk ⊢
    cases h1s : ref.Object.SHA with
    | none =>
      simp only [h1s] at hk ⊢
      cases k with
      | zero =>
        simp only [List.getElem?_cons_zero, Option.some.injEq] at hk
        subst hk
        simp at herr
      | succ k => simp at hk
    | some sha =>
      simp only [h1s] at hk ⊢
      cases h2 : (store.CreateTree (store.GetRef s owner repo ("heads/" ++ branch)).2 owner repo
          sha (contents.map (fun p =>
            ({ Path := some p.1, EntryType := some "blob", Content := some p.2,
               Mode := some "100644" } : TreeEntry)))).1 with
      | error e2 =>
        simp only [h2] at hk ⊢
        rcases k with _ | _ | k
        · simp only [List.getElem?_cons_zero, Option.some.injEq] at hk
          subst hk
          simp at herr
        · simp only [List.getElem?_cons_succ, List.getElem?_cons_zero, Option.some.injEq] at hk
          subst hk
          simp only [Option.some.injEq] at herr
          subst herr
          refine ⟨rfl, rfl, rfl, by simp [StoreOp.step], ?_⟩
          rw [store.createTree_tip, store.getRef_tip]
        · simp at hk
      | ok tree =>
        simp only [h2] at hk ⊢
        cases h3 : (store.GetCommit (store.CreateTree
            (store.GetRef s owner repo ("heads/" ++ branch)).2 owner repo
            sha (contents.map (fun p =>
              ({ Path := some p.1, EntryType := some "blob", Content := some p.2,
                 Mode := some "100644" } : TreeEntry)))).2 owner repo sha).1 with
        | error e3 =>
          simp only [h3] at hk ⊢
          rcases k with _ | _ | _ | k
          · simp only [List.getElem?_cons_zero, Option.some.injEq] at hk
            subst hk
            simp at herr
          · simp only [List.getElem?_cons_succ, List.getElem?_cons_zero,
              Option.some.injEq] at hk
            subst hk
            simp at herr
          · simp only [List.getElem?_cons_succ, List.getElem?_cons_zero,
              Option.some.injEq] at hk
            subst hk
            simp only [Option.some.injEq] at herr
            subst herr
            refine ⟨rfl, rfl, rfl, by simp [StoreOp.step], ?_⟩
            rw [store.getCommit_tip, store.createTree_tip, store.getRef_tip]
          · simp at hk
        | ok parent =>
          simp only [h3] at hk ⊢
          cases h4 : (store.CreateCommit (store.GetCommit (store.CreateTree
              (store.GetRef s owner repo ("heads/" ++ branch)).2 owner repo
              sha (contents.map (fun p =>
                ({ Path := some p.1, EntryType := some "blob", Content := some p.2,
                   Mode := some "100644" } : TreeEntry)))).2 owner repo sha).2 owner repo
              (Commit.mk none
                (some { Date := now, Name := commitAuthor, Email := commitEmail })
                (some message) (some tree) [parent.Commit.setSHA parent.SHA])).1 with
          | error e4 =>
            simp only [h4] at hk ⊢
            rcases k with _ | _ | _ | _ | k
            · simp only [List.getElem?_cons_zero, Option.some.injEq] at hk
              subst hk
              simp at herr
            · simp only [List.getElem?_cons_succ, List.getElem?_cons_zero,
                Option.some.injEq] at hk
              subst hk
              simp at herr
            · simp only [List.getElem?_cons_succ, List.getElem?_cons_zero,
                Option.some.injEq] at hk
              subst hk
              simp at herr
            · simp only [List.getElem?_cons_succ, List.getElem?_cons_zero,
                Option.some.injEq] at hk
              subst hk
              simp only [Option.some.injEq] at herr
              subst herr
              refine ⟨rfl, rfl, rfl, by simp [StoreOp.step], ?_⟩
              rw [store.createCommit_tip, store.getCommit_tip, store.createTree_tip,
                store.getRef_tip]
            · simp at hk
          | ok newCommit =>
            simp only [h4] at hk ⊢
            exfalso
            rcases k with _ | _ | _ | _ | _ | k
            · simp only [List.getElem?_cons_zero, Option.some.injEq] at hk
              subst hk
              simp at herr
            · simp only [List.getElem?_cons_succ, List.getElem?_cons_zero,
                Option.some.injEq] at hk
              subst hk
              simp at herr
            · simp only [List.getElem?_cons_succ, List.getElem?_cons_zero,
                Option.some.injEq] at hk
              subst hk
              simp at herr
            · simp only [List.getElem?_cons_succ, List.getElem?_cons_zero,
                Option.some.injEq] at hk
              subst hk
              simp at herr
            · simp only [List.getElem?_cons_succ, List.getElem?_cons_zero,
                Option.some.injEq] at hk
              subst hk
              exact hstep rfl
            · simp at hk


/-- Reading the SHA after setting it. -/
theorem Commit.SHA_setSHA (c : Commit) (sha : Option String) : (c.setSHA sha).SHA = sha := by
  cases c; rfl

/-- Claim C16: for every publish request for which `commit` returns no error
(all five steps succeed), the invocations are `getRef` on "heads/<branch>",
`createTree`, `getCommit`, one `createCommit` and `updateRef`, in this order;
the commit handed to `createCommit` has the tree that `createTree` returned and
a single parent, whose SHA is the SHA read from the branch in step 1;
`updateRef` is called non-force on the ref of the branch with the SHA of the
new commit, and afterwards the branch points at the new commit. -/
theorem commit_success {τ : Type} (store : ObjectStore τ) (now : Nat)
    (message : String) (s : τ) (owner repo branch commitAuthor commitEmail : String)
    (contents : List (String × String))
    (h : (commit store now message s owner repo branch commitAuthor commitEmail
      contents).outcome = CommitOutcome.returned none) :
    ∃ (ref : Reference) (sha : String) (tree : Tree) (parent : RepositoryCommit)
      (newCommit : Commit) (s1 s2 s3 s4 : τ),
      store.GetRef s owner repo ("heads/" ++ branch) = (Except.ok ref, s1) ∧
      ref.Object.SHA = some sha ∧
      store.tip s owner repo (refName ("heads/" ++ branch)) = some sha ∧
      refName ref.Ref = refName ("heads/" ++ branch) ∧
      store.CreateTree s1 owner repo sha (contents.map (fun p =>
        ({ Path := some p.1, EntryType := some "blob", Content := some p.2,
           Mode := some "100644" } : TreeEntry))) = (Except.ok tree, s2) ∧
      store.GetCommit s2 owner repo sha = (Except.ok parent, s3) ∧
      (parent.Commit.setSHA parent.SHA).SHA = some sha ∧
      store.CreateCommit s3 owner repo
        (Commit.mk none (some { Date := now, Name := commitAuthor, Email := commitEmail })
          (some message) (some tree) [parent.Commit.setSHA parent.SHA]) =
        (Except.ok newCommit, s4) ∧
      store.UpdateRef s4 owner repo { Ref := ref.Ref, Object := { SHA := newCommit.SHA } }
        false =
        (none, (commit store now message s owner repo branch commitAuthor commitEmail
          contents).state) ∧
      (commit store now message s owner repo branch commitAuthor commitEmail
        contents).calls =
        [{ op := StoreOp.getRef owner repo ("heads/" ++ branch), err := none },
         { op := StoreOp.createTree owner repo sha (contents.map (fun p =>
            ({ Path := some p.1, EntryType := some "blob", Content := some p.2,
               Mode := some "100644" } : TreeEntry))), err := none },
         { op := StoreOp.getCommit owner repo sha, err := none },
         { op := StoreOp.createCommit owner repo
            (Commit.mk none (some { Date := now, Name := commitAuthor, Email := commitEmail })
              (some message) (some tree) [parent.Commit.setSHA parent.SHA]), err := none },
         { op := StoreOp.updateRef owner repo
            { Ref := ref.Ref, Object := { SHA := newCommit.SHA } } false, err := none }] ∧
      store.tip (commit store now message s owner repo branch commitAuthor commitEmail
        contents).state owner repo (refName ("heads/" ++ branch)) = newCommit.SHA := by
  unfold commit at h ⊢
  simp only at h ⊢
  cases h1 : (store.GetRef s owner repo ("heads/" ++ branch)).1 with
  | error e1 => simp [h1] at h
  | ok ref =>
    simp only [h1] at h ⊢
    cases h1s : ref.Object.SHA with
    | none => simp [h1s] at h
    | some sha =>
      simp only [h1s] at h ⊢
      cases h2 : (store.CreateTree (store.GetRef s owner repo ("heads/" ++ branch)).2 owner repo
          sha (contents.map (fun p =>
            ({ Path := some p.1, EntryType := some "blob", Content := some p.2,
               Mode := some "100644" } : TreeEntry)))).1 with
      | error e2 => simp [h2] at h
      | ok tree =>
        simp only [h2] at h ⊢
        cases h3 : (store.GetCommit (store.CreateTree
            (store.GetRef s owner repo ("heads/" ++ branch)).2 owner repo
            sha (contents.map (fun p =>
              ({ Path := some p.1, EntryType := some "blob", Content := some p.2,
                 Mode := some "100644" } : TreeEntry)))).2 owner repo sha).1 with
        | error e3 => simp [h3] at h
        | ok parent =>
          simp only [h3] at h ⊢
          cases h4 : (store.CreateCommit (store.GetCommit (store.CreateTree
              (store.GetRef s owner repo ("heads/" ++ branch)).2 owner repo
              sha (contents.map (fun p =>
                ({ Path := some p.1, EntryType := some "blob", Content := some p.2,
                   Mode := some "100644" } : TreeEntry)))).2 owner repo sha).2 owner repo
              (Commit.mk none
                (some { Date := now, Name := commitAuthor, Email := commitEmail })
                (some message) (some tree) [parent.Commit.setSHA parent.SHA])).1 with
          | error e4 => simp [h4] at h
          | ok newCommit =>
            simp only [h4, CommitOutcome.returned.injEq] at h ⊢
            obtain ⟨g1, g2⟩ := store.getRef_ok _ _ _ _ _ h1
            have hp := store.getCommit_ok _ _ _ _ _ h3
            refine ⟨ref, sha, tree, parent, newCommit, _, _, _, _,
              Prod.ext h1 rfl, h1s, ?_, g1, Prod.ext h2 rfl, Prod.ext h3 rfl, ?_,
              Prod.ext h4 rfl, Prod.ext h rfl, ?_, ?_⟩
            · rw [← g2, h1s]
            · rw [Commit.SHA_setSHA, hp]
            · simp only [h]
            · have := store.updateRef_ok _ owner repo
                { Ref := ref.Ref, Object := { SHA := newCommit.SHA } } false h
              simp only at this
              rw [g1] at this
              exact this


/-- The state of the object store of the worked instances: the commit that
"heads/main" points at, and the number of the step that is out of order
(0 when none is). -/
structure DemoRepo where
  head : Option String
  broken : Nat
deriving DecidableEq

/-- An object store with the single branch "main", for the worked instances. -/
def demoStore : ObjectStore DemoRepo where
  GetRef := fun s _ _ ref =>
    if s.broken = 1 then (Except.error "getRef failed", s)
    else if refName ref = "heads/main" then (Except.ok { Ref := ref, Object := { SHA := s.head } }, s)
    else (Except.error "404 Not Found", s)
  CreateTree := fun s _ _ _ entries =>
    if s.broken = 2 then (Except.error "createTree failed", s)
    else (Except.ok { SHA := some "tree-sha", Entries := entries }, s)
  GetCommit := fun s _ _ sha =>
    if s.broken = 3 then (Except.error "getCommit failed", s)
    else (Except.ok { SHA := some sha, Commit := Commit.mk none none none none [] }, s)
  CreateCommit := fun s _ _ c =>
    if s.broken = 4 then (Except.error "createCommit failed", s)
    else (Except.ok (c.setSHA (some "new-sha")), s)
  UpdateRef := fun s _ _ r _ =>
    if s.broken = 5 then (some "updateRef failed", s)
    else if refName r.Ref = "heads/main" then (none, { s with head := r.Object.SHA })
    else (some "404 Not Found", s)
  tip := fun s _ _ ref => if ref = "heads/main" then s.head else none
  getRef_tip := by
    intro s owner repo ref
    simp only
    split_ifs <;> rfl
  createTree_tip := by
    intro s owner repo base entries
    simp only
    split_ifs <;> rfl
  getCommit_tip := by
    intro s owner repo sha
    simp only
    split_ifs <;> rfl
  createCommit_tip := by
    intro s owner repo c
    simp only
    split_ifs <;> rfl
  getRef_ok := by
    intro s owner repo ref r h
    simp only at h
    split_ifs at h with h1 h2
    · simp only [Except.ok.injEq] at h
      subst h
      simp [h2]
  getCommit_ok := by
    intro s owner repo sha rc h
    simp only at h
    split_ifs at h
    simp only [Except.ok.injEq] at h
    subst h
    rfl
  updateRef_ok := by
    intro s owner repo r force h
    simp only at h ⊢
    split_ifs at h ⊢ with h1 h2
    simp [h2]

/-- Witness for claim C15: the third step, `getCommit`, fails. -/
theorem commit_stops_at_failed_step_witness :
    (commit demoStore 0 "update" { head := some "abc", broken := 3 } "owner" "repo" "main"
      "bot" "bot@example.org" [("README.md", "text")]).outcome =
      CommitOutcome.returned (some "getCommit failed") ∧
    (commit demoStore 0 "update" { head := some "abc", broken := 3 } "owner" "repo" "main"
      "bot" "bot@example.org" [("README.md", "text")]).calls.length = 2 + 1 ∧
    demoStore.tip (commit demoStore 0 "update" { head := some "abc", broken := 3 } "owner"
      "repo" "main" "bot" "bot@example.org" [("README.md", "text")]).state =
      demoStore.tip { head := some "abc", broken := 3 } :=
  have h := commit_stops_at_failed_step demoStore 0 "update" { head := some "abc", broken := 3 }
    "owner" "repo" "main" "bot" "bot@example.org" [("README.md", "text")] 2
    { op := StoreOp.getCommit "owner" "repo" "abc", err := some "getCommit failed" }
    "getCommit failed" rfl rfl (by decide)
  ⟨h.1, h.2.1, h.2.2.2.2⟩

/-- Witness for claim C16: all five steps succeed on the branch "main". -/
theorem commit_success_witness :
    (commit demoStore 0 "update" { head := some "abc", broken := 0 } "owner" "repo" "main"
      "bot" "bot@example.org" [("README.md", "text")]).outcome =
      CommitOutcome.returned none ∧
    ∃ newCommit : Commit,
      demoStore.tip (commit demoStore 0 "update" { head := some "abc", broken := 0 } "owner"
        "repo" "main" "bot" "bot@example.org" [("README.md", "text")]).state
        "owner" "repo" (refName ("heads/" ++ "main")) = newCommit.SHA := by
  refine ⟨rfl, ?_⟩
  obtain ⟨_, _, _, _, newCommit, _, _, _, _, _, _, _, _, _, _, _, _, _, _, h⟩ :=
    commit_success demoStore 0 "update" { head := some "abc", broken := 0 } "owner" "repo"
      "main" "bot" "bot@example.org" [("README.md", "text")] rfl
  exact ⟨newCommit, h⟩

/-- In the worked instance the branch points at the new commit afterwards. -/
theorem commit_demo_moves_branch :
    demoStore.tip (commit demoStore 0 "update" { head := some "abc", broken := 0 } "owner"
      "repo" "main" "bot" "bot@example.org" [("README.md", "text")]).state
      "owner" "repo" "heads/main" = some "new-sha" := by
  rfl

end CollectRepos
